import Mathlib

/-!
Verification development for the NRN (National Road Network) pipeline.

Shallow embedding of the parts of the code base that the specification's
claims are about:

* `geobasenrn/validation/failures.py` — advisory validation checks
  (`SpeedLimitCheck`, `DateCheck`).
* `src/stage_1/field_map_functions.py` — the field-mapping function
  library (`conditional_values`).
* `geobasenrn/junctions.py` — junction derivation from road and ferry
  line work (`get_road_intersections`, `build_junctions`,
  `get_graph_for_lines`, `get_attribute_for_node`).
* `src/stage_5/stage_5.py` — KML partitioning (`define_kml_groups`).
* `src/stage_1/stage_1.py` — `split_strplaname`,
  `filter_and_relink_strplaname`, `clean_datasets`.

Data frames are modelled as Lean lists of rows, pandas boolean filtering
as `List.filter`, and Python strings as `String`/`List Char` with an
ASCII model of the case functions.  Machine floats do not occur in the
modelled fragments: coordinates are compared by exact tuple equality in
the source, so they are embedded as integer pairs.
-/

namespace NRN

/-! ## Validation failures (`geobasenrn/validation/failures.py`)

A validation failure is recorded by `ValidationCheck._record_failure` as
a `(record_id, failure_code, message)` tuple, one per row of the
offending sub-frame, in row order.  Rows are modelled as
`(record_id, value)` pairs; the `record_id` plays the role of the
`id_field` attribute looked up by `_record_failure`.
-/

/-- One recorded failure: `(record_id, failure_code, message)`. -/
abbrev Failure := Nat × String × String

/-- `SpeedLimitCheck._speed_too_low`: flag rows whose speed is `< 5`. -/
def speedTooLow (df : List (Nat × Int)) : List Failure :=
  (df.filter (fun r => r.2 < 5)).map (fun r => (r.1, "E101", "Speed is below 5 kph"))

/-- `SpeedLimitCheck._speed_too_high`: flag rows whose speed is `> 120`. -/
def speedTooHigh (df : List (Nat × Int)) : List Failure :=
  (df.filter (fun r => r.2 > 120)).map (fun r => (r.1, "E101", "Speed is above 120 kph"))

/-- `SpeedLimitCheck._incorrect_speed_value`: the source filters the
frame with `self.df[self.check_field].mod(5) == 0`, i.e. it flags the
rows whose speed IS divisible by 5, and records them with the message
"Speed is not divisible by 5 kph".  (`Series.mod` with a positive
modulus agrees with `Int.emod`.) -/
def incorrectSpeedValue (df : List (Nat × Int)) : List Failure :=
  (df.filter (fun r => r.2 % 5 = 0)).map (fun r => (r.1, "E101", "Speed is not divisible by 5 kph"))

/-- `SpeedLimitCheck.run`: runs the three sweeps in order; each sweep
appends its failures to `self.failures`. -/
def speedLimitCheckRun (df : List (Nat × Int)) : List Failure :=
  speedTooLow df ++ speedTooHigh df ++ incorrectSpeedValue df

/-! ### `DateCheck`

Date values are modelled as `Option String` (`none` for a pandas null).
`pd.to_numeric` over a digit string is modelled by `parseNum`; the
claims only exercise all-digit inputs, for which `to_numeric` returns
the denoted integer (leading zeros included).
-/

/-- Numeric parse of a digit string (model of `pd.to_numeric` on the
sliced date fragments; non-digit or empty input yields `none`). -/
def parseNum (s : String) : Option Nat :=
  if s.data ≠ [] ∧ s.data.all Char.isDigit then
    some (s.data.foldl (fun n c => n * 10 + (c.toNat - 48)) 0)
  else none

/-- `DateCheck._validate_not_empty`: flag null date values. -/
def validateNotEmpty (df : List (Nat × Option String)) : List Failure :=
  (df.filter (fun r => r.2.isNone)).map (fun r => (r.1, "E102", "Missing date value"))

/-- `DateCheck._validate_length`: the source collects the values whose
length is 4, 6 or 8 into `correct_dates` and flags every row whose
value is not `isin` that set; a row's value is a member exactly when it
is non-null and its own length is 4, 6 or 8 (pandas `isin` never
matches a null). -/
def validateLength (df : List (Nat × Option String)) : List Failure :=
  (df.filter (fun r =>
      match r.2 with
      | none => true
      | some s => ¬(s.length = 4 ∨ s.length = 6 ∨ s.length = 8))).map
    (fun r => (r.1, "E102", "Invalid date length"))

/-- Year component: `pd.to_numeric(df[field].str[:4])` (null rows stay
null and fail every comparison). -/
def yearOf (v : Option String) : Option Nat :=
  v.bind (fun s => parseNum (s.take 4))

/-- Month component: `pd.to_numeric(df[field].str[4:6])`. -/
def monthOf (v : Option String) : Option Nat :=
  v.bind (fun s => parseNum ((s.drop 4).take 2))

/-- Day component: `pd.to_numeric(df[field].str[6:8])`. -/
def dayOf (v : Option String) : Option Nat :=
  v.bind (fun s => parseNum ((s.drop 6).take 2))

/-- `DateCheck._validate_year`: flags years after the run year, then
years before 1960.  `thisYear` stands for `datetime.date.today().year`. -/
def validateYear (thisYear : Nat) (df : List (Nat × Option String)) : List Failure :=
  ((df.filter (fun r => match yearOf r.2 with
      | some y => thisYear < y
      | none => false)).map
    (fun r => (r.1, "E102", "Year value cannot be in the future."))) ++
  ((df.filter (fun r => match yearOf r.2 with
      | some y => y < 1960
      | none => false)).map
    (fun r => (r.1, "E102", "Year value should probably be before 1960.")))

/-- `DateCheck._validate_month`: restrict to values longer than 4
characters and flag months outside `[1, 12]`. -/
def validateMonth (df : List (Nat × Option String)) : List Failure :=
  ((df.filter (fun r => match r.2 with
      | some s => 4 < s.length
      | none => false)).filter (fun r => match monthOf r.2 with
      | some m => m < 1 ∨ 12 < m
      | none => false)).map
    (fun r => (r.1, "E102", "Invalid month provided for date."))

/-- `DateCheck.run`: calls `_validate_not_empty`, `_validate_length`,
`_validate_year` and `_validate_month` — and nothing else.  In
particular `_validate_day` is never invoked.  (The source returns
`None` for an empty failure list; both cases are modelled by the list
itself.) -/
def dateCheckRun (thisYear : Nat) (df : List (Nat × Option String)) : List Failure :=
  validateNotEmpty df ++ validateLength df ++ validateYear thisYear df ++ validateMonth df

/-- `calendar.isleap`. -/
def isLeap (y : Nat) : Bool :=
  y % 4 = 0 ∧ (y % 100 ≠ 0 ∨ y % 400 = 0)

/-- `DateCheck._validate_day` (defined in the source but never called
by `DateCheck.run`).  Rows longer than 6 characters are kept; days
below 1 are flagged first.  The loop over the non-February months never
executes its body: `month_number not in month_groups` is always true
because a pandas `GroupBy` offers no scalar membership (iteration
yields `(key, frame)` tuples, which never equal an `int`), so every
iteration hits `continue`.  After that loop the variable
`month_number` is left at 12, which is why the February message says
"for 12".  February rows are then grouped by year (ascending keys,
pandas `groupby` sort order) and days above 28/29 are flagged.  (If no
February row exists the source raises `KeyError` on `get_group(2)`;
the model is only applied to frames with February data.) -/
def validateDay (df : List (Nat × Option String)) : List Failure :=
  let df8 := df.filter (fun r => match r.2 with
    | some s => 6 < s.length
    | none => false)
  let low := (df8.filter (fun r => match dayOf r.2 with
      | some d => d < 1
      | none => false)).map
    (fun r => (r.1, "E102", "Invalid day of the month - cannot be less than 1"))
  let feb := df8.filter (fun r => monthOf r.2 = some 2)
  let years := ((feb.filterMap (fun r => yearOf r.2)).dedup).insertionSort (fun a b => a ≤ b)
  let febFailures := years.flatMap (fun y =>
    let upper : Nat := if isLeap y then 29 else 28
    ((feb.filter (fun r => yearOf r.2 = some y)).filter (fun r => match dayOf r.2 with
        | some d => upper < d
        | none => false)).map
      (fun r => (r.1, "E102",
        "Invalid day of the month - cannot be more than " ++ toString upper ++ " for 12")))
  low ++ febFailures

/-! ## `conditional_values` (`src/stage_1/field_map_functions.py`)

Values flowing through the field-mapping engine are Python scalars;
`PyVal` models the shapes the claims exercise together with Python
truthiness.  Each entry of `conditions_map` is a Python expression that
`conditional_values` evaluates with `eval` after substituting the input
values; the embedding receives each condition already evaluated to its
boolean outcome, paired with the mapped result value.
-/

/-- A Python scalar value. -/
inductive PyVal where
  | vNone : PyVal
  | vStr : String → PyVal
  | vInt : Int → PyVal
  | vBool : Bool → PyVal
deriving DecidableEq, Repr

/-- Python truthiness of a `PyVal` (`bool(x)`). -/
def pyTruthy : PyVal → Bool
  | .vNone => false
  | .vStr s => s ≠ ""
  | .vInt n => n ≠ 0
  | .vBool b => b

/-- `conditional_values(vals, conditions_map, else_value=None)`: the
initial `return_val` is `else_value if else_value else vals[0]` — a
truthiness test, not an `is None` test — and the first condition that
evaluates true overrides it.  `vals[0]` on an empty list raises in
Python; the embedding is applied to non-empty `vals`. -/
def conditionalValues (vals : List PyVal) (conditionsMap : List (Bool × PyVal))
    (elseValue : PyVal := .vNone) : PyVal :=
  match conditionsMap.find? (fun c => c.1) with
  | some c => c.2
  | none => if pyTruthy elseValue then elseValue else vals.headD .vNone

/-! ## Junctions (`geobasenrn/junctions.py`)

Coordinates are compared by exact tuple equality in the source (the
7-decimal rounding has already happened at ingest), so they are
embedded as integer pairs.  A linear feature is a `LineString`: a list
of vertex coordinates plus the `exitnbr` / `accuracy` attributes its
data-frame row carries (the only two attributes `build_junctions`
reads back).  Geometric overlays are modelled on the vertex-meeting
fragment: datasets whose lines intersect each other only at shared
vertices (no mid-segment crossings, no collinear overlaps).  On that
fragment the pairwise geometric intersection of two distinct lines is
exactly their set of common vertices, which is what the model
computes.
-/

/-- A coordinate tuple. -/
abbrev Coord := Int × Int

/-- A Python attribute value carried on a data-frame row / graph edge:
null (`None`/`NaN`), a string, or a number. -/
inductive AttrVal where
  | null : AttrVal
  | str : String → AttrVal
  | int : Int → AttrVal
deriving DecidableEq, Repr

/-- A linear feature (`LineString` row of `roadseg`/`ferryseg`). -/
structure Line where
  coords : List Coord
  exitnbr : AttrVal := .null
  accuracy : AttrVal := .null
deriving DecidableEq, Repr

/-- `geom.coords[0]`. -/
def Line.first (l : Line) : Coord := l.coords.headD (0, 0)

/-- `geom.coords[-1]`. -/
def Line.last (l : Line) : Coord := l.coords.getLastD (0, 0)

/-- `drop_duplicates` keeping the first occurrence, in order (pandas
semantics). -/
def uniqueFirst {α : Type} [DecidableEq α] (l : List α) : List α :=
  l.foldl (fun acc p => if p ∈ acc then acc else acc ++ [p]) []

/-- The common vertices of two lines, each listed once. -/
def sharedVertices (a b : List Coord) : List Coord :=
  uniqueFirst (a.filter (fun p => p ∈ b))

/-- The geometric intersection of two distinct lines on the
vertex-meeting fragment, kept only when it is a single `Point` (the
source keeps `intersection.geometry.type == 'Point'`; an empty
intersection yields no overlay row, and two or more common vertices
yield a `MultiPoint`/`LineString`, which the type filter drops). -/
def interPoint (a b : Line) : Option Coord :=
  match sharedVertices a.coords b.coords with
  | [p] => some p
  | _ => none

/-- The `Point` rows of `gpd.overlay(df, df, how='intersection')`: one
row per ordered pair of distinct features whose intersection is a
single point.  (A feature's self-intersection is the feature itself, a
line, dropped by the type filter.)  The enumeration below lists each
unordered index pair in both orders; the source's row order differs,
but only the per-point row counts are consumed. -/
def overlaySelfPoints : List Line → List Coord
  | [] => []
  | a :: rest =>
      rest.filterMap (fun b => interPoint a b) ++
      rest.filterMap (fun b => interPoint b a) ++
      overlaySelfPoints rest

/-- `get_road_intersections`: group the point rows by WKB (exact
coordinate equality), keep the coordinates with at least
`junction_min_point_count = 3` rows, one row each
(`drop_duplicates(subset=['intersection_size', 'wkb'])`). -/
def roadIntersections (roads : List Line) : List Coord :=
  let rows := overlaySelfPoints roads
  (uniqueFirst rows).filter (fun p => 3 ≤ rows.count p)

/-- `_get_start_and_end_points`: all start points, then all end
points, de-duplicated by WKB keeping the first occurrence. -/
def startEndPoints (df : List Line) : List Coord :=
  uniqueFirst (df.map Line.first ++ df.map Line.last)

/-- The `Point` rows of `gpd.overlay(road_df, ferry_df,
how='intersection')`: one row per (road, ferry) feature pair whose
intersection is a single point; no de-duplication. -/
def ferryIntersections (roads ferries : List Line) : List Coord :=
  roads.flatMap (fun r => ferries.filterMap (fun f => interPoint r f))

/-- A directed-graph edge of `get_graph_for_lines` with its row
attributes. -/
structure GEdge where
  u : Coord
  v : Coord
  exitnbr : AttrVal
  accuracy : AttrVal
deriving DecidableEq, Repr

/-- The attributes `build_junctions` copies from edges. -/
inductive AttrField where
  | exitnbr : AttrField
  | accuracy : AttrField
deriving DecidableEq, Repr

/-- Attribute lookup on an edge. -/
def GEdge.attr (e : GEdge) : AttrField → AttrVal
  | .exitnbr => e.exitnbr
  | .accuracy => e.accuracy

/-- `nx.DiGraph.add_edge(e1, e2)` followed by
`net[e1][e2].update(attr)`: a repeated `(u, v)` pair keeps its
position and gets its attributes overwritten. -/
def addEdge (es : List GEdge) (u v : Coord) (ex ac : AttrVal) : List GEdge :=
  if es.any (fun e => e.u = u ∧ e.v = v) then
    es.map (fun e => if e.u = u ∧ e.v = v then ⟨u, v, ex, ac⟩ else e)
  else es ++ [⟨u, v, ex, ac⟩]

/-- `get_graph_for_lines` with `simplify=True` (the default used by
`build_junctions`): each `LineString` yields one edge from its first
to its last coordinate, carrying the row attributes. -/
def getGraphForLines (df : List Line) : List GEdge :=
  df.foldl (fun es l => addEdge es l.first l.last l.exitnbr l.accuracy) []

/-- `net.has_node`. -/
def hasNode (es : List GEdge) (p : Coord) : Bool :=
  es.any (fun e => e.u = p ∨ e.v = p)

/-- `get_attribute_for_node`: absent nodes yield the default.  For a
present node, `net.subgraph(node_id)` induces the subgraph on that
single node (networkx treats a hashable that is itself a node of the
graph as a one-node bunch), whose edge set consists of the self-loops
at the node only — the ordinary incident edges are not part of the
induced subgraph.  The first self-loop attribute value that is neither
null nor the literal string "None" is returned, else the default. -/
def getAttributeForNode (es : List GEdge) (p : Coord) (fld : AttrField)
    (default : AttrVal := .str "None") : AttrVal :=
  if hasNode es p then
    let subEdges := es.filter (fun e => e.u = p ∧ e.v = p)
    match (subEdges.map (fun e => e.attr fld)).find?
        (fun v => v ≠ AttrVal.str "None" ∧ v ≠ AttrVal.null) with
    | some v => v
    | none => default
  else default

/-- The in-plus-out degree of a node of the `get_graph_for_lines`
graph (`nx.DiGraph` collapses repeated `(u, v)` pairs; a self-loop
counts once in each term, i.e. degree 2). -/
def nodeDegree (roads : List Line) (p : Coord) : Nat :=
  ((getGraphForLines roads).filter (fun e => e.u = p)).length +
    ((getGraphForLines roads).filter (fun e => e.v = p)).length

/-- Junction classification values ever assigned by the code. -/
inductive JuncType where
  | intersection : JuncType
  | deadEnd : JuncType
  | ferry : JuncType
  | natProvTer : JuncType
deriving DecidableEq, Repr

/-- The first `gpd.overlay(dead_ends, road_juncs,
how='symmetric_difference')`, modelled geometrically on point frames:
the rows of either frame whose coordinate does not occur in the other
survive.  BOTH input frames carry a `junctype` column, so pandas
suffixes the colliding columns to `junctype_1`/`junctype_2`: no
surviving row retains a `junctype` value, and only the geometry is
carried forward. -/
def symDiffDrop (a b : List (Coord × JuncType)) : List Coord :=
  (a.filter (fun r => ¬ b.any (fun s => s.1 = r.1))).map (fun r => r.1) ++
  (b.filter (fun r => ¬ a.any (fun s => s.1 = r.1))).map (fun r => r.1)

/-- The second `gpd.overlay(dead_ends, ferry_juncs,
how='symmetric_difference')`: the left frame no longer has a
`junctype` column (it was suffixed away by the first overlay), so no
collision occurs and the column comes from the right frame alone —
left-side survivors get a null `junctype`, right-side survivors keep
their `Ferry` value. -/
def symDiffKeepRight (a : List Coord) (b : List (Coord × JuncType)) :
    List (Coord × Option JuncType) :=
  (a.filter (fun p => ¬ b.any (fun s => s.1 = p))).map
    (fun p => (p, (none : Option JuncType))) ++
  (b.filter (fun s => ¬ a.any (fun p => p = s.1))).map (fun s => (s.1, some s.2))

/-- One output row of `build_junctions` (the metadata constants
`acqtech`/`metacover`/`specvers`/`credate`/`provider` are stamped
uniformly and are not modelled).  `jtype` is nullable: rows whose
`junctype` cell is NaN carry `none`. -/
structure JRow where
  coord : Coord
  jtype : Option JuncType
  exitnbr : AttrVal
  accuracy : AttrVal
deriving DecidableEq, Repr

/-- `build_junctions(road_df, admin_boundary_poly, ferry_df)`.  The
administrative boundary polygon enters only through
`geometry.within`, abstracted as the predicate `within`.  Road
intersections are computed first; with a non-empty ferry frame the
road×ferry overlay points are classified `Ferry`; all start/end
points (roads, then ferries) are labelled `DeadEnd` — but that label
is destroyed by the symmetric-difference overlay against the road
junctions (the colliding `junctype` columns are suffixed to
`junctype_1`/`junctype_2`), and with a ferry frame the second
symmetric difference reintroduces a `junctype` column from the ferry
side only.  The `.loc[~within, 'junctype'] = 'NatProvTer'` assignment
then writes `NatProvTer` outside the boundary, leaving null for the
surviving endpoint rows within it.  Finally `exitnbr` and `accuracy`
are pulled from the road graph via `get_attribute_for_node` (with its
default `'None'` for both fields). -/
def buildJunctions (roads : List Line) (within : Coord → Bool)
    (ferries : List Line) : List JRow :=
  let roadJuncs : List (Coord × JuncType) :=
    (roadIntersections roads).map (fun p => (p, JuncType.intersection))
  let ferryJuncs : List (Coord × JuncType) :=
    if ferries.isEmpty then []
    else (ferryIntersections roads ferries).map (fun p => (p, JuncType.ferry))
  let allStartEnd : List Coord :=
    startEndPoints roads ++ (if ferries.isEmpty then [] else startEndPoints ferries)
  let deadEnds0 : List (Coord × JuncType) :=
    allStartEnd.map (fun p => (p, JuncType.deadEnd))
  let deadEnds1 : List Coord := symDiffDrop deadEnds0 roadJuncs
  let deadEnds2 : List (Coord × Option JuncType) :=
    if ferries.isEmpty then deadEnds1.map (fun p => (p, none))
    else symDiffKeepRight deadEnds1 ferryJuncs
  let deadEnds := deadEnds2.map
    (fun r => if within r.1 then r else (r.1, some JuncType.natProvTer))
  let rows := roadJuncs.map (fun r => (r.1, some r.2)) ++
    ferryJuncs.map (fun r => (r.1, some r.2)) ++ deadEnds
  let net := getGraphForLines roads
  rows.map (fun r =>
    { coord := r.1, jtype := r.2,
      exitnbr := getAttributeForNode net r.1 AttrField.exitnbr,
      accuracy := getAttributeForNode net r.1 AttrField.accuracy })

/-! ## KML partitioning (`src/stage_5/stage_5.py`)

`Stage.define_kml_groups` partitions the KML `roadseg` rows by
placename under the hard-coded `kml_limit = 250` and emits one
ogr2ogr export parameter row per output file; `Stage.export_data`
then runs one ogr2ogr subprocess per parameter row.  A roadseg row is
modelled by its `(l_placenam, r_placenam)` pair; strings are lists of
characters so that the quote-doubling sanitization is provable.  The
ogr2ogr/SQL evaluation of the emitted `-where`/`-sql` filters is the
external writer; it is modelled with standard SQL semantics: a
`-where "f='x''y'"` filter matches rows whose field equals the
unescaped literal, and the `-sql … ROWID in (…)` filter matches the
listed ROWIDs. -/

/-- A Python string, as a character list. -/
abbrev PStr := List Char

/-- `name.replace("'", "''")` — the SQL sanitization of
`define_kml_groups`. -/
def sqlEscapeQuotes : PStr → PStr
  | [] => []
  | c :: cs => if c = '\'' then c :: c :: sqlEscapeQuotes cs else c :: sqlEscapeQuotes cs

/-- SQL reading of a quoted string literal: each doubled quote
denotes one quote, pairing from the left. -/
def sqlUnescapeQuotes : PStr → PStr
  | [] => []
  | [c] => [c]
  | c :: d :: cs =>
      if c = '\'' ∧ d = '\'' then c :: sqlUnescapeQuotes cs
      else c :: sqlUnescapeQuotes (d :: cs)

/-- `re.sub(r"[\W_]+", "_", name)`: collapse every maximal run of
characters outside `[a-zA-Z0-9]` to a single underscore (ASCII model
of the regex classes).  The boolean argument tracks whether the
current position is inside such a run. -/
def fileSafeGo : Bool → PStr → PStr
  | _, [] => []
  | inRun, c :: cs =>
      if c.isAlphanum then c :: fileSafeGo false cs
      else if inRun then fileSafeGo true cs
      else '_' :: fileSafeGo true cs

/-- File-name sanitization of a placename. -/
def fileSafe (s : PStr) : PStr := fileSafeGo false s

/-- The concatenated series
`pd.concat([df[l_placenam], df[df[l_placenam] != df[r_placenam]][r_placenam]])`
from which the per-placename counts are taken. -/
def kmlSeries (df : List (PStr × PStr)) : List PStr :=
  df.map (fun r => r.1) ++ (df.filter (fun r => r.1 ≠ r.2)).map (fun r => r.2)

/-- The ROWIDs (1-based row numbers, `df["ROWID"] = range(1, len+1)`)
of the rows one of whose placename sides equals `name`. -/
def matchRowids (df : List (PStr × PStr)) (name : PStr) : List Nat :=
  (df.enum.filter (fun x => x.2.1 = name ∨ x.2.2 = name)).map (fun x => x.1 + 1)

/-- `rowids[i : i + n]` slices for `i in range(0, len(rowids), n)`,
by structural recursion on a length fuel. -/
def chunksGo {α : Type} (n : Nat) : Nat → List α → List (List α)
  | 0, _ => []
  | _ + 1, [] => []
  | fuel + 1, x :: xs => (x :: xs).take n :: chunksGo n fuel ((x :: xs).drop n)

/-- Split a list into chunks of at most `n` elements. -/
def chunksOf {α : Type} (n : Nat) (l : List α) : List (List α) :=
  chunksGo n l.length l

/-- The export parameter rows ogr2ogr receives for the KML roadseg
table, each resolved to `(output base name, ROWIDs of the features the
file receives)`.  Small placenames (count ≤ 250) produce one
`-where`-filtered file whose features are the rows matching the
placename obtained by unescaping the sanitized name embedded in the
SQL literal; each limit-exceeding placename produces one `-sql ROWID
in (…)` file per 250-sized chunk of the ROWIDs matching the
*sanitized* name (the source compares the already-sanitized placename
against the data frame columns).  The source sorts the placenames; the
claims do not depend on file order, so first-occurrence order is kept
here. -/
def kmlExportFiles (df : List (PStr × PStr)) : List (PStr × List Nat) :=
  let series := kmlSeries df
  let uniques := uniqueFirst series
  let smalls := (uniques.filter (fun n => ¬ 250 < series.count n)).map sqlEscapeQuotes
  let bigs := (uniques.filter (fun n => 250 < series.count n)).map sqlEscapeQuotes
  let smallFiles := smalls.map (fun s => (fileSafe s, matchRowids df (sqlUnescapeQuotes s)))
  let bigFiles := bigs.flatMap (fun s =>
    (chunksOf 250 (matchRowids df s)).enum.map
      (fun ci => (fileSafe s ++ '_' :: Nat.toDigits 10 (ci.1 + 1), ci.2)))
  smallFiles ++ bigFiles

/-- The files `define_kml_groups` prepares for one limit-exceeding
placename: one per 250-sized ROWID chunk, suffixed `_1`, `_2`, …. -/
def bigFilesFor (df : List (PStr × PStr)) (name : PStr) : List (PStr × List Nat) :=
  (chunksOf 250 (matchRowids df name)).enum.map
    (fun ci => (fileSafe name ++ '_' :: Nat.toDigits 10 (ci.1 + 1), ci.2))

/-! ## strplaname split and de-duplication (`src/stage_1/stage_1.py`)

`Stage.split_strplaname` duplicates every `strplaname` row into a
left- and a right-side record, and `Stage.filter_and_relink_strplaname`
collapses duplicate records and repairs the nid references in
`addrange` and `altnamlink`.  A `strplaname` row is modelled by its
`nid`, `uuid`, and the list of its remaining (non-identifier) column
values; fresh `uuid.uuid4().hex` identifiers are modelled as
caller-supplied streams of strings. -/

/-- A cell of a `strplaname` row before the split: either a scalar or
a left/right packed pair (the `np.ndarray`/`list` values produced by
the field mapping). -/
inductive PackedVal where
  | single : String → PackedVal
  | pair : String → String → PackedVal
deriving DecidableEq, Repr

/-- Is the value a packed pair? (`isinstance(val, np.ndarray) or
isinstance(val, list)`) -/
def PackedVal.isPair : PackedVal → Bool
  | .single _ => false
  | .pair _ _ => true

/-- `itemgetter(0)` on a cell.  On a packed pair it is the left
element; on a Python scalar string it is the first character (the
embedding is only exercised on pairs). -/
def PackedVal.get0 : PackedVal → PackedVal
  | .single s => .single (s.take 1)
  | .pair a _ => .single a

/-- `itemgetter(1)` on a cell: the right element of a pair, or the
second character of a scalar string. -/
def PackedVal.get1 : PackedVal → PackedVal
  | .single s => .single ((s.drop 1).take 1)
  | .pair _ b => .single b

/-- A `strplaname` row: `nid`, `uuid`, and the non-identifier column
values in a fixed column order. -/
structure SRow where
  nid : String
  uuid : String
  data : List PackedVal
deriving DecidableEq, Repr

/-- The nested column positions, detected from the FIRST row only
(`sample_value = df.iloc[0]`); an empty frame has no sample and hence
no nested columns. -/
def nestedColsOf (df : List SRow) : List Nat :=
  match df with
  | [] => []
  | r :: _ => (r.data.enum.filter (fun iv => iv.2.isPair)).map (fun iv => iv.1)

/-- Replace the value at every listed column position using `f`. -/
def applyAt (cols : List Nat) (f : PackedVal → PackedVal) (row : SRow) : SRow :=
  { row with data := row.data.enum.map (fun iv => if iv.1 ∈ cols then f iv.2 else iv.2) }

/-- `Stage.split_strplaname`, restricted to the strplaname frame and
the nid lookup it produces.  When nested columns exist, the frame is
duplicated: `df_l` keeps the index-0 elements AND THE ORIGINAL
`nid`/`uuid`; `df_r` takes the index-1 elements and receives fresh
`nid`s and `uuid`s (from the supplied streams, one per row); the
result is their concatenation and the lookup is
`dict(zip(df_l["nid"], df_r["nid"]))`.  With no nested column nothing
happens.  (The `altnamlink` duplication block of the source is outside
the claim and not modelled.) -/
def splitStrplaname (df : List SRow) (newNids newUuids : List String) :
    List SRow × List (String × String) :=
  let cols := nestedColsOf df
  if cols = [] then (df, [])
  else
    let dfL := df.map (applyAt cols PackedVal.get0)
    let dfR := ((df.map (applyAt cols PackedVal.get1)).zip (newNids.zip newUuids)).map
      (fun x => { x.1 with nid := x.2.1, uuid := x.2.2 })
    (dfL ++ dfR, (dfL.map (fun r => r.nid)).zip (dfR.map (fun r => r.nid)))

/-- `series.map(lambda val: itemgetter(val)(nid_lookup))` — dictionary
lookup of a reference value.  Python raises `KeyError` when the value
is not a key; the embedding is only applied under the hypothesis that
every reference is a key, and returns the value unchanged otherwise. -/
def lookupNid (lookup : List (String × String)) (v : String) : String :=
  ((lookup.find? (fun kv => kv.1 = v)).map (fun kv => kv.2)).getD v

/-- `addrange.r_offnanid` relinking after the split: every value is
mapped through the nid lookup. -/
def relinkColumn (lookup : List (String × String)) (col : List String) : List String :=
  col.map (lookupNid lookup)

/-- A `strplaname` row after the split: all cells scalar. -/
structure DRow where
  nid : String
  uuid : String
  data : List String
deriving DecidableEq, Repr

/-- `df.drop_duplicates(subset=match_fields, keep="first")` where the
match fields are every column except `uuid` and `nid`: keep a row only
when no earlier kept row has the same `data`. -/
def dropDupRows (seen : List (List String)) : List DRow → List DRow
  | [] => []
  | r :: t => if r.data ∈ seen then dropDupRows seen t
              else r :: dropDupRows (r.data :: seen) t

/-- Modelled from the spec: `helpers.groupby_to_list` (the helpers
module is not part of the sources) groups the frame by the match
fields preserving row order, the first `nid` of each group becomes the
group's index, and the exploded dict maps every `nid` to that first
`nid`.  Faithfully: the survivor nid of `v` is the nid of the first
row whose `data` equals the data of `v`'s row (`v` itself when `v` is
not a strplaname nid — Python would raise `KeyError` there). -/
def survivorNid (strp : List DRow) (v : String) : String :=
  (((strp.find? (fun r => r.nid = v)).bind (fun r =>
    strp.find? (fun s => s.data = r.data))).map (fun s => s.nid)).getD v

/-- `Stage.filter_and_relink_strplaname`: drop duplicate strplaname
rows (first occurrence survives) and, when any row was dropped,
rewrite `addrange.l_offnanid`, `addrange.r_offnanid` and
`altnamlink.strnamenid` through the nid lookup built from the
original frame. -/
def filterAndRelink (strp : List DRow) (lOff rOff strnam : List String) :
    List DRow × List String × List String × List String :=
  let dfNew := dropDupRows [] strp
  if strp.length = dfNew.length then (strp, lOff, rOff, strnam)
  else
    (dfNew, lOff.map (survivorNid strp), rOff.map (survivorNid strp),
      strnam.map (survivorNid strp))

/-! ## Data cleaning (`Stage.clean_datasets`, `src/stage_1/stage_1.py`)

The cleaning stage runs four sweeps over the table store, in order:
lower-case the string-typed `*id` columns (except `uuid`), overwrite
`roadseg.roadsegid` with `1..n`, strip/collapse whitespace in every
string (object-dtype) column, and title-case the `rtename*` columns of
`roadseg` and `ferryseg`.  Every sweep acts column-wise, so the whole
stage is the per-column composite `colOp` mapped over the store.
Python's ASCII case functions and `str.strip`/`re.sub(" +", " ")` are
modelled over `List Char`.  The per-column `dtype` and `default` come
from the schema registry (`helpers.compile_dtypes` /
`compile_default_values`, configuration outside `src/`) and are
carried as column metadata. -/

/-- Python/ASCII: is the character an upper-case letter. -/
def isUpperChar (c : Char) : Bool := 65 ≤ c.toNat ∧ c.toNat ≤ 90

/-- Python/ASCII: is the character a lower-case letter. -/
def isLowerChar (c : Char) : Bool := 97 ≤ c.toNat ∧ c.toNat ≤ 122

/-- A cased character (ASCII letter). -/
def isCasedChar (c : Char) : Bool := isUpperChar c || isLowerChar c

/-- ASCII lower-casing of one character (`str.lower`). -/
def lowerChar (c : Char) : Char :=
  if 65 ≤ c.toNat ∧ c.toNat ≤ 90 then Char.ofNat (c.toNat + 32) else c

/-- ASCII upper-casing of one character (`str.title` uses it at word
starts). -/
def upperChar (c : Char) : Char :=
  if 97 ≤ c.toNat ∧ c.toNat ≤ 122 then Char.ofNat (c.toNat - 32) else c

/-- `str.lower`. -/
def pyLower (s : PStr) : PStr := s.map lowerChar

/-- `str.islower`: at least one cased character and no upper-case
character. -/
def pyIsLower (s : PStr) : Bool :=
  s.any isCasedChar && s.all (fun c => ¬ isUpperChar c)

/-- `str.title`, ASCII: the first cased character after an uncased one
is upper-cased, every other cased character is lower-cased; the flag
records whether the previous character was cased. -/
def titleAux : Bool → PStr → PStr
  | _, [] => []
  | prev, c :: cs =>
      (if prev then lowerChar c else upperChar c) :: titleAux (isCasedChar c) cs

/-- `str.title`. -/
def pyTitle (s : PStr) : PStr := titleAux false s

/-- `str.istitle`, ASCII: upper-case only after uncased, lower-case
only after cased, at least one cased character. -/
def istitleAux : Bool → Bool → PStr → Bool
  | _, cased, [] => cased
  | prev, cased, c :: cs =>
      if isUpperChar c then !prev && istitleAux true true cs
      else if isLowerChar c then prev && istitleAux true true cs
      else istitleAux false cased cs

/-- `str.istitle`. -/
def pyIsTitle (s : PStr) : Bool := istitleAux false false s

/-- The characters `str.strip` removes (ASCII whitespace: space, tab,
newline, carriage return, vertical tab, form feed). -/
def pyIsSpace (c : Char) : Bool :=
  c.toNat = 32 ∨ c.toNat = 9 ∨ c.toNat = 10 ∨ c.toNat = 13 ∨ c.toNat = 11 ∨ c.toNat = 12

/-- `str.strip()`: drop whitespace from both ends. -/
def pyStrip (s : PStr) : PStr :=
  ((s.dropWhile pyIsSpace).reverse.dropWhile pyIsSpace).reverse

/-- `re.sub(r" +", " ", ·)`: collapse every run of space characters to
a single space; the flag records whether the current position is
inside a run. -/
def collapseGo : Bool → PStr → PStr
  | _, [] => []
  | inRun, c :: cs =>
      if c = ' ' then
        (if inRun then collapseGo true cs else ' ' :: collapseGo true cs)
      else c :: collapseGo false cs

/-- Collapse internal space runs. -/
def collapseSpaces (s : PStr) : PStr := collapseGo false s

/-- One `strip_whitespace` application to a value:
`re.sub(r" +", " ", str(val.strip()))`. -/
def cleanWhitespace (s : PStr) : PStr := collapseSpaces (pyStrip s)

/-- One `lower_case_ids` application to a value: non-default values
that are not already lower case are lower-cased. -/
def lowerStep (d v : PStr) : PStr :=
  if v ≠ d ∧ ¬ pyIsLower v then pyLower v else v

/-- One `title_case_route_names` application to a value: non-default
values that are not already title case are title-cased. -/
def titleStep (d v : PStr) : PStr :=
  if v ≠ d ∧ ¬ pyIsTitle v then pyTitle v else v

/-- Column dtype as registered in the schema. -/
inductive DType where
  | str : DType
  | int : DType
deriving DecidableEq, Repr

/-- A cell value: a Python string or integer. -/
inductive CVal where
  | s : PStr → CVal
  | i : Int → CVal
deriving DecidableEq, Repr

/-- Apply a string function to a cell, leaving integers unchanged
(the sweeps' `map` over an object column touches the string values;
the modelled sweeps never reach integer cells of an `int`-typed
column). -/
def cvalMap (f : PStr → PStr) : CVal → CVal
  | .s x => .s (f x)
  | .i n => .i n

/-- A column of the table store with its schema metadata. -/
structure Column where
  name : String
  dtype : DType
  default : PStr
  vals : List CVal
deriving DecidableEq, Repr

/-- Map a string function over a column's values. -/
def mapStr (f : PStr → PStr) (c : Column) : Column :=
  { c with vals := c.vals.map (cvalMap f) }

/-- The route-name columns title-cased by `title_case_route_names`. -/
def rtenameCols : List String :=
  ["rtename1en", "rtename2en", "rtename3en", "rtename4en",
   "rtename1fr", "rtename2fr", "rtename3fr", "rtename4fr"]

/-- `str.endswith`, on the underlying character list. -/
def strEndsWith (s suffix : String) : Bool := suffix.data.isSuffixOf s.data

/-- The replacement `roadsegid` values `1..n`. -/
def rangeInts (n : Nat) : List CVal :=
  List.map (fun k => CVal.i (Int.ofNat k + 1)) (List.range n)

/-- Sweep 1, `lower_case_ids`: lower-case the string-typed `*id`
columns other than `uuid`. -/
def sweepLower (c : Column) : Column :=
  if strEndsWith c.name "id" ∧ c.name ≠ "uuid" ∧ c.dtype = DType.str then
    mapStr (lowerStep c.default) c
  else c

/-- Sweep 2: overwrite `roadseg.roadsegid` with `range(1, len+1)`. -/
def sweepRenumber (tname : String) (c : Column) : Column :=
  if tname = "roadseg" ∧ c.name = "roadsegid" then { c with vals := rangeInts c.vals.length }
  else c

/-- Sweep 3, `strip_whitespace`: strip and collapse whitespace in
every string-typed column. -/
def sweepWhitespace (c : Column) : Column :=
  if c.dtype = DType.str then mapStr cleanWhitespace c else c

/-- Sweep 4, `title_case_route_names`: title-case the route-name
columns of `ferryseg` and `roadseg`. -/
def sweepTitle (tname : String) (c : Column) : Column :=
  if (tname = "ferryseg" ∨ tname = "roadseg") ∧ c.name ∈ rtenameCols then
    mapStr (titleStep c.default) c
  else c

/-- The composite action of `Stage.clean_datasets` on one column of
table `tname`, in sweep order. -/
def colOp (tname : String) (c : Column) : Column :=
  sweepTitle tname (sweepWhitespace (sweepRenumber tname (sweepLower c)))

/-- `Stage.clean_datasets` over the whole table store. -/
def cleanDatasets (store : List (String × List Column)) : List (String × List Column) :=
  store.map (fun t => (t.1, t.2.map (colOp t.1)))

end NRN

/-! # Theorems for the claims -/

namespace NRN

/-- C8: the advisory speed validation is claimed to record a failure
iff the speed is below 5, above 120 or not divisible by 5.  The code
has the divisibility test inverted: it flags the rows whose speed IS
divisible by 5.  At speed 60 (compliant per the claim and per the
check's own docstring) a failure reading "Speed is not divisible by 5
kph" is recorded, while at speed 7 (non-compliant per the claim) no
failure is recorded. -/
theorem speedLimitCheck_divisibility_inverted :
    speedLimitCheckRun [(0, 60)] = [(0, "E101", "Speed is not divisible by 5 kph")] ∧
    speedLimitCheckRun [(1, 7)] = [] := by
  constructor <;> rfl

/-- C9: for the 8-character date "20210230" (February 30, 2021 — an
invalid day for its month), `DateCheck.run` records no failure at all,
because it never invokes `_validate_day`; the uncalled `_validate_day`
itself would have flagged the record. -/
theorem dateCheck_run_misses_invalid_day :
    dateCheckRun 2026 [(0, some "20210230")] = [] ∧
    validateDay [(0, some "20210230")] ≠ [] := by
  exact ⟨rfl, by decide⟩

/-! ### Helper lemmas about the junction embedding -/

theorem foldl_uniqueFirst_mem {α : Type} [DecidableEq α] (l : List α) (acc : List α) (x : α) :
    x ∈ l.foldl (fun acc p => if p ∈ acc then acc else acc ++ [p]) acc ↔ x ∈ acc ∨ x ∈ l := by
  induction l generalizing acc with
  | nil => simp
  | cons a t ih =>
      rw [List.foldl_cons, ih]
      by_cases h : a ∈ acc
      · simp only [h, if_true, List.mem_cons]
        constructor
        · rintro (hx | hx)
          · exact Or.inl hx
          · exact Or.inr (Or.inr hx)
        · rintro (hx | rfl | hx)
          · exact Or.inl hx
          · exact Or.inl h
          · exact Or.inr hx
      · simp only [h, if_false, List.mem_append, List.mem_singleton, List.mem_cons]
        tauto

theorem mem_uniqueFirst {α : Type} [DecidableEq α] (l : List α) (x : α) :
    x ∈ uniqueFirst l ↔ x ∈ l := by
  unfold uniqueFirst
  rw [foldl_uniqueFirst_mem]
  simp

theorem foldl_uniqueFirst_nodup {α : Type} [DecidableEq α] (l : List α) (acc : List α)
    (hacc : acc.Nodup) :
    (l.foldl (fun acc p => if p ∈ acc then acc else acc ++ [p]) acc).Nodup := by
  induction l generalizing acc with
  | nil => simpa
  | cons a t ih =>
      rw [List.foldl_cons]
      by_cases h : a ∈ acc
      · simpa [h] using ih acc hacc
      · refine ih _ ?_
        simp [h, List.nodup_append, hacc]

theorem nodup_uniqueFirst {α : Type} [DecidableEq α] (l : List α) : (uniqueFirst l).Nodup :=
  foldl_uniqueFirst_nodup l [] List.nodup_nil

theorem mem_sharedVertices (a b : List Coord) (p : Coord) :
    p ∈ sharedVertices a b ↔ p ∈ a ∧ p ∈ b := by
  unfold sharedVertices
  rw [mem_uniqueFirst]
  simp [List.mem_filter]

theorem nodup_sharedVertices (a b : List Coord) : (sharedVertices a b).Nodup :=
  nodup_uniqueFirst _

theorem eq_singleton_of_nodup_forall {α : Type} {l : List α} {p : α} (hnd : l.Nodup)
    (hall : ∀ q ∈ l, q = p) (hmem : p ∈ l) : l = [p] := by
  cases l with
  | nil => cases hmem
  | cons x t =>
      have hx : x = p := hall x (List.mem_cons_self x t)
      subst hx
      cases t with
      | nil => rfl
      | cons y s =>
          have hy : y = x := hall y (List.mem_cons_of_mem _ (List.mem_cons_self y s))
          exact absurd (hy ▸ List.mem_cons_self y s) ((List.nodup_cons.mp hnd).1)

theorem interPoint_some_mem {x y : Line} {q : Coord} (h : interPoint x y = some q) :
    q ∈ x.coords ∧ q ∈ y.coords := by
  unfold interPoint at h
  rcases hs : sharedVertices x.coords y.coords with _ | ⟨c, rest⟩
  · rw [hs] at h; cases h
  · rcases rest with _ | ⟨d, rest⟩
    · rw [hs] at h
      simp only [Option.some.injEq] at h
      subst h
      exact (mem_sharedVertices _ _ _).mp (hs ▸ List.mem_cons_self c [])
    · rw [hs] at h; cases h

theorem interPoint_eq_some {a b : Line} {p : Coord}
    (hab : ∀ q₁ ∈ a.coords, ∀ q₂ ∈ a.coords, q₁ ∈ b.coords → q₂ ∈ b.coords → q₁ = q₂) :
    interPoint a b = some p ↔ p ∈ a.coords ∧ p ∈ b.coords := by
  constructor
  · exact interPoint_some_mem
  · rintro ⟨hpa, hpb⟩
    have hmem : p ∈ sharedVertices a.coords b.coords := (mem_sharedVertices _ _ _).mpr ⟨hpa, hpb⟩
    have hall : ∀ q ∈ sharedVertices a.coords b.coords, q = p := by
      intro q hq
      rcases (mem_sharedVertices _ _ _).mp hq with ⟨hqa, hqb⟩
      exact hab q hqa p hpa hqb hpb
    have hsingle := eq_singleton_of_nodup_forall (nodup_sharedVertices _ _) hall hmem
    unfold interPoint
    rw [hsingle]

theorem count_filterMap_some {α β : Type} [BEq β] [LawfulBEq β] (f : α → Option β) (l : List α)
    (p : β) : ((l.filterMap f).count p) = l.countP (fun x => f x == some p) := by
  rw [List.count_eq_countP, List.countP_filterMap]
  apply List.countP_congr
  intro x _
  cases hfx : f x <;> simp [hfx]

/-- Number of lines of the dataset having `p` as a vertex. -/
def vertexIncid (roads : List Line) (p : Coord) : Nat :=
  roads.countP (fun l => p ∈ l.coords)

theorem count_overlaySelfPoints (roads : List Line) (p : Coord)
    (hshare : List.Pairwise
      (fun a b => ∀ q₁ ∈ a.coords, ∀ q₂ ∈ a.coords, q₁ ∈ b.coords → q₂ ∈ b.coords → q₁ = q₂)
      roads) :
    (overlaySelfPoints roads).count p = vertexIncid roads p * (vertexIncid roads p - 1) := by
  induction roads with
  | nil => simp [overlaySelfPoints, vertexIncid]
  | cons a rest ih =>
      rcases List.pairwise_cons.mp hshare with ⟨ha, hrest⟩
      have hmirror : ∀ b ∈ rest,
          ∀ q₁ ∈ b.coords, ∀ q₂ ∈ b.coords, q₁ ∈ a.coords → q₂ ∈ a.coords → q₁ = q₂ :=
        fun b hb q₁ h₁ q₂ h₂ ha₁ ha₂ => ha b hb q₁ ha₁ q₂ ha₂ h₁ h₂
      have h1 : ((rest.filterMap (fun b => interPoint a b)).count p) =
          if p ∈ a.coords then vertexIncid rest p else 0 := by
        rw [count_filterMap_some]
        by_cases hpa : p ∈ a.coords
        · rw [if_pos hpa]
          apply List.countP_congr
          intro b hb
          simp only [beq_iff_eq, decide_eq_true_eq]
          rw [interPoint_eq_some (ha b hb)]
          simp [hpa]
        · rw [if_neg hpa]
          apply List.countP_eq_zero.mpr
          intro b hb
          simp only [beq_iff_eq]
          rw [interPoint_eq_some (ha b hb)]
          simp [hpa]
      have h2 : ((rest.filterMap (fun b => interPoint b a)).count p) =
          if p ∈ a.coords then vertexIncid rest p else 0 := by
        rw [count_filterMap_some]
        by_cases hpa : p ∈ a.coords
        · rw [if_pos hpa]
          apply List.countP_congr
          intro b hb
          simp only [beq_iff_eq, decide_eq_true_eq]
          rw [interPoint_eq_some (hmirror b hb)]
          simp [hpa]
        · rw [if_neg hpa]
          apply List.countP_eq_zero.mpr
          intro b hb
          simp only [beq_iff_eq]
          rw [interPoint_eq_some (hmirror b hb)]
          simp [hpa]
      rw [overlaySelfPoints, List.count_append, List.count_append, h1, h2, ih hrest]
      unfold vertexIncid
      rw [List.countP_cons]
      by_cases hpa : p ∈ a.coords
      · simp only [hpa, decide_True, if_true]
        generalize List.countP (fun l => decide (p ∈ l.coords)) rest = k
        cases k with
        | zero => simp
        | succ m =>
            simp only [Nat.succ_sub_one]
            ring
      · simp [hpa]

theorem mem_roadIntersections (roads : List Line) (p : Coord) :
    p ∈ roadIntersections roads ↔ 3 ≤ (overlaySelfPoints roads).count p := by
  unfold roadIntersections
  simp only [List.mem_filter, mem_uniqueFirst, decide_eq_true_eq]
  constructor
  · exact fun h => h.2
  · intro h
    exact ⟨List.count_pos_iff.mp (by omega), h⟩

theorem overlay_mem_vertex {roads : List Line} {q : Coord}
    (h : q ∈ overlaySelfPoints roads) : ∃ l ∈ roads, q ∈ l.coords := by
  induction roads with
  | nil => cases h
  | cons a rest ih =>
      rw [overlaySelfPoints] at h
      rcases List.mem_append.mp h with h1 | h2
      · rcases List.mem_append.mp h1 with h1a | h1b
        · rcases List.mem_filterMap.mp h1a with ⟨b, _, hfb⟩
          exact ⟨a, List.mem_cons_self a rest, (interPoint_some_mem hfb).1⟩
        · rcases List.mem_filterMap.mp h1b with ⟨b, hb, hfb⟩
          exact ⟨b, List.mem_cons_of_mem _ hb, (interPoint_some_mem hfb).1⟩
      · rcases ih h2 with ⟨l, hl, hql⟩
        exact ⟨l, List.mem_cons_of_mem _ hl, hql⟩

theorem coords_pair (l : Line) (h : l.coords.length = 2) : l.coords = [l.first, l.last] := by
  rcases l with ⟨coords, ex, ac⟩
  rcases coords with _ | ⟨a, _ | ⟨b, _ | ⟨c, t⟩⟩⟩ <;> simp_all [Line.first, Line.last]

theorem mem_startEndPoints {df : List Line} {l : Line} (hl : l ∈ df) {p : Coord}
    (hp : p = l.first ∨ p = l.last) : p ∈ startEndPoints df := by
  unfold startEndPoints
  rw [mem_uniqueFirst]
  rcases hp with hp | hp <;> subst hp
  · exact List.mem_append.mpr (Or.inl (List.mem_map_of_mem _ hl))
  · exact List.mem_append.mpr (Or.inr (List.mem_map_of_mem _ hl))

theorem getGraphForLines_aux (roads : List Line) (acc : List GEdge)
    (hacc : ∀ l ∈ roads, ∀ e ∈ acc, ¬(e.u = l.first ∧ e.v = l.last))
    (hdist : List.Pairwise (fun a b => (a.first, a.last) ≠ (b.first, b.last)) roads) :
    roads.foldl (fun es l => addEdge es l.first l.last l.exitnbr l.accuracy) acc =
      acc ++ roads.map (fun l => ⟨l.first, l.last, l.exitnbr, l.accuracy⟩) := by
  induction roads generalizing acc with
  | nil => simp
  | cons a rest ih =>
      rcases List.pairwise_cons.mp hdist with ⟨hhead, htail⟩
      have hnone : (acc.any (fun e => e.u = a.first ∧ e.v = a.last)) = false := by
        rw [List.any_eq_false]
        intro e he
        simpa using hacc a (List.mem_cons_self a rest) e he
      rw [List.foldl_cons]
      have hstep : addEdge acc a.first a.last a.exitnbr a.accuracy =
          acc ++ [⟨a.first, a.last, a.exitnbr, a.accuracy⟩] := by
        unfold addEdge
        rw [hnone]
        simp
      rw [hstep, ih]
      · simp
      · intro l hl e he
        rcases List.mem_append.mp he with he | he
        · exact hacc l (List.mem_cons_of_mem _ hl) e he
        · simp only [List.mem_singleton] at he
          subst he
          intro ⟨h1, h2⟩
          exact hhead l hl (by simp_all)
      · exact htail

theorem getGraphForLines_eq_map (roads : List Line)
    (hdist : List.Pairwise (fun a b => (a.first, a.last) ≠ (b.first, b.last)) roads) :
    getGraphForLines roads = roads.map (fun l => ⟨l.first, l.last, l.exitnbr, l.accuracy⟩) := by
  unfold getGraphForLines
  simpa using getGraphForLines_aux roads [] (by simp) hdist

theorem countP_first_last (roads : List Line) (p : Coord)
    (hseg : ∀ l ∈ roads, l.coords.length = 2 ∧ l.first ≠ l.last) :
    roads.countP (fun l => l.first = p) + roads.countP (fun l => l.last = p) =
      roads.countP (fun l => p ∈ l.coords) := by
  induction roads with
  | nil => simp
  | cons a rest ih =>
      have hs := hseg a (List.mem_cons_self a rest)
      have ihr := ih (fun l hl => hseg l (List.mem_cons_of_mem _ hl))
      rw [List.countP_cons, List.countP_cons, List.countP_cons]
      have hmem : (p ∈ a.coords) ↔ (a.first = p ∨ a.last = p) := by
        rw [coords_pair a hs.1]
        constructor
        · intro h
          rcases List.mem_cons.mp h with h | h
          · exact Or.inl h.symm
          · exact Or.inr (List.mem_singleton.mp h).symm
        · rintro (h | h)
          · exact h ▸ List.mem_cons_self _ _
          · exact h ▸ List.mem_cons_of_mem _ (List.mem_singleton_self _)
      by_cases h1 : a.first = p
      · have h2 : ¬ a.last = p := fun h2 => hs.2 (h1.trans h2.symm)
        simp [h1, h2, hmem]
        omega
      · by_cases h2 : a.last = p
        · simp [h1, h2, hmem]
          omega
        · simp [h1, h2, hmem]
          omega

theorem nodeDegree_eq_vertexIncid (roads : List Line) (p : Coord)
    (hseg : ∀ l ∈ roads, l.coords.length = 2 ∧ l.first ≠ l.last)
    (hdist : List.Pairwise (fun a b => (a.first, a.last) ≠ (b.first, b.last)) roads) :
    nodeDegree roads p = vertexIncid roads p := by
  unfold nodeDegree vertexIncid
  rw [getGraphForLines_eq_map roads hdist, ← List.countP_eq_length_filter,
    ← List.countP_eq_length_filter, List.countP_map, List.countP_map]
  simpa [Function.comp] using countP_first_last roads p hseg

theorem three_le_mul_pred (k : Nat) : 3 ≤ k * (k - 1) ↔ 3 ≤ k := by
  constructor
  · intro h
    by_contra hlt
    push_neg at hlt
    interval_cases k <;> simp_all
  · intro h
    rcases Nat.exists_eq_add_of_le h with ⟨n, rfl⟩
    have h2 : 3 + n - 1 = 2 + n := by omega
    rw [h2]
    nlinarith

/-- Two road segments meeting end-to-end at `(1, 0)`: a degree-2 node
whose other endpoints `(0, 0)` and `(1, 1)` have degree 1, all within
the boundary. -/
def twoRoadsDegTwo : List Line :=
  [{ coords := [((0 : Int), (0 : Int)), (1, 0)] }, { coords := [(1, 0), (1, 1)] }]

/-- C1: the claim (and the spec) says the junction builder emits
`Intersection` exactly at road-graph degree ≥ 3, `DeadEnd` at every
degree-1 coordinate, and nothing at degree-2 coordinates.  On
`twoRoadsDegTwo` the code instead emits a junction row at the degree-2
coordinate `(1, 0)` (the dead-end sweep keeps every endpoint not
already classified an intersection), and the degree-1 endpoints
`(0, 0)` and `(1, 1)` receive rows whose `junctype` is null, not
`DeadEnd`: the symmetric-difference overlay suffixes the colliding
`junctype` columns to `junctype_1`/`junctype_2`, and the later
`NatProvTer` `.loc` assignment creates `junctype` fresh, leaving null
for within-boundary rows — so no `DeadEnd`-classified junction is ever
produced. -/
theorem buildJunctions_degree_rows_null :
    nodeDegree twoRoadsDegTwo (1, 0) = 2 ∧
    nodeDegree twoRoadsDegTwo (0, 0) = 1 ∧
    (buildJunctions twoRoadsDegTwo (fun _ => true) []).map (fun r => (r.coord, r.jtype)) =
      [((0, 0), none), ((1, 0), none), ((1, 1), none)] := by
  decide

theorem line_first_mem {l : Line} (h : l.coords ≠ []) : l.first ∈ l.coords := by
  rcases l with ⟨coords, ex, ac⟩
  cases coords with
  | nil => simp at h
  | cons a t => exact List.mem_cons_self a t

theorem getLastD_mem {α : Type} (l : List α) (d : α) (h : l ≠ []) : l.getLastD d ∈ l := by
  induction l generalizing d with
  | nil => simp at h
  | cons a t ih =>
      cases t with
      | nil => simp
      | cons b s =>
          rw [List.getLastD_cons]
          exact List.mem_cons_of_mem _ (ih a (by simp))

theorem line_last_mem {l : Line} (h : l.coords ≠ []) : l.last ∈ l.coords :=
  getLastD_mem l.coords (0, 0) h

theorem roadIntersections_subset_startEnd (roads : List Line)
    (hseg : ∀ l ∈ roads, l.coords.length = 2 ∧ l.first ≠ l.last) :
    ∀ c ∈ roadIntersections roads, c ∈ startEndPoints roads := by
  intro c hc
  have h3 := (mem_roadIntersections _ _).mp hc
  have hcmem : c ∈ overlaySelfPoints roads := List.count_pos_iff.mp (by omega)
  rcases overlay_mem_vertex hcmem with ⟨l, hl, hcl⟩
  rw [coords_pair l (hseg l hl).1] at hcl
  rcases List.mem_cons.mp hcl with hcl | hcl
  · exact mem_startEndPoints hl (Or.inl hcl)
  · exact mem_startEndPoints hl (Or.inr (List.mem_singleton.mp hcl))

/-- A single road whose row carries `exitnbr = "12"` and
`accuracy = 3`. -/
def oneRoadWithExit : List Line :=
  [{ coords := [((0 : Int), (0 : Int)), (1, 0)], exitnbr := .str "12", accuracy := .int 3 }]

/-- C2: the claim says a junction's `exitnbr` is the first
non-null value among the edges incident to its node (default "None")
and `accuracy` likewise with default `-1`.  In the code,
`get_attribute_for_node` takes `net.subgraph(node_id)` — the induced
subgraph on the single node, which contains no ordinary incident edge —
so the incident edge carrying `exitnbr = "12"` is never consulted and
the default is returned; moreover `build_junctions` omits the
`default` argument, so `accuracy` also defaults to the string "None",
not `-1`. -/
theorem getAttributeForNode_ignores_incident_edges :
    (getGraphForLines oneRoadWithExit).any
      (fun e => e.u = ((0 : Int), (0 : Int)) ∧ e.exitnbr = .str "12") = true ∧
    getAttributeForNode (getGraphForLines oneRoadWithExit) (0, 0) AttrField.exitnbr =
      .str "None" ∧
    (buildJunctions oneRoadWithExit (fun _ => true) []).map
        (fun r => (r.coord, r.exitnbr, r.accuracy)) =
      [((0, 0), .str "None", .str "None"), ((1, 0), .str "None", .str "None")] := by
  decide

/-- A road and a ferry that do not touch. -/
def roadAndIsolatedFerry : List Line × List Line :=
  ([{ coords := [((0 : Int), (0 : Int)), (1, 0)] }],
   [{ coords := [((5 : Int), (5 : Int)), (6, 5)] }])

/-- C4 counterexample: the claim says every ferry node absent from the
road graph yields a junction classified `Ferry`.  The ferry endpoint
`(5, 5)` is not a node of the road graph, yet no `Ferry` junction is
emitted there: ferry junctions are the road×ferry overlay points, so a
ferry endpoint touching no road only reaches the output through the
dead-end sweep — and those surviving rows end with a null `junctype`
(the symmetric-difference overlays strip the `DeadEnd` label via
column suffixing). -/
theorem buildJunctions_isolated_ferry_node_not_ferry :
    hasNode (getGraphForLines roadAndIsolatedFerry.1) (5, 5) = false ∧
    (buildJunctions roadAndIsolatedFerry.1 (fun _ => true) roadAndIsolatedFerry.2).map
        (fun r => (r.coord, r.jtype)) =
      [((0, 0), none), ((1, 0), none), ((5, 5), none), ((6, 5), none)] := by
  decide

theorem buildJunctions_ferry_eq (roads : List Line) (within : Coord → Bool) (f : Line)
    (fs : List Line) :
    buildJunctions roads within (f :: fs) =
      (((roadIntersections roads).map (fun q => (q, some JuncType.intersection)) ++
        (ferryIntersections roads (f :: fs)).map (fun q => (q, some JuncType.ferry)) ++
        (symDiffKeepRight
            (symDiffDrop
              ((startEndPoints roads ++ startEndPoints (f :: fs)).map
                (fun q => (q, JuncType.deadEnd)))
              ((roadIntersections roads).map (fun q => (q, JuncType.intersection))))
            ((ferryIntersections roads (f :: fs)).map (fun q => (q, JuncType.ferry)))).map
          (fun r => if within r.1 then r else (r.1, some JuncType.natProvTer))).map
        (fun r => { coord := r.1, jtype := r.2,
                    exitnbr := getAttributeForNode (getGraphForLines roads) r.1
                      AttrField.exitnbr,
                    accuracy := getAttributeForNode (getGraphForLines roads) r.1
                      AttrField.accuracy })) := by
  unfold buildJunctions
  simp
  rfl

theorem ferryIntersections_mem_road {roads fer : List Line} {q : Coord}
    (h : q ∈ ferryIntersections roads fer) : ∃ l ∈ roads, q ∈ l.coords := by
  unfold ferryIntersections at h
  rcases List.mem_flatMap.mp h with ⟨r, hr, hq⟩
  rcases List.mem_filterMap.mp hq with ⟨g, _, hip⟩
  exact ⟨r, hr, (interPoint_some_mem hip).1⟩

theorem roadIntersections_mem_road {roads : List Line} {q : Coord}
    (h : q ∈ roadIntersections roads) : ∃ l ∈ roads, q ∈ l.coords := by
  have h3 := (mem_roadIntersections _ _).mp h
  exact overlay_mem_vertex (List.count_pos_iff.mp (by omega))

/-- C4 (amended): with a non-empty ferryseg dataset, ferry junctions
are the points of the road×ferry geometric overlay, not the ferry
graph nodes: every coordinate where a road line and a ferry line share
exactly one vertex receives a junction row classified `Ferry`
(alongside any road-derived `Intersection` row at the same coordinate,
with no overriding), while — contrary to the original claim — a ferry
endpoint that touches no road line is never classified `Ferry`: within
the boundary, every junction row emitted at such a coordinate has a
null `junctype` (the symmetric-difference overlays strip the `DeadEnd`
label via column suffixing). -/
theorem buildJunctions_ferry_rules (roads : List Line) (within : Coord → Bool)
    (f : Line) (fs : List Line) :
    (∀ e : Coord, (∃ g ∈ f :: fs, e = g.first ∨ e = g.last) →
      (∀ l ∈ roads, e ∉ l.coords) → within e = true →
      ((∃ r ∈ buildJunctions roads within (f :: fs),
          r.coord = e ∧ r.jtype = none) ∧
        ∀ r ∈ buildJunctions roads within (f :: fs), r.coord = e →
          r.jtype = none)) ∧
    (∀ p : Coord, (∃ r ∈ roads, ∃ g ∈ f :: fs, interPoint r g = some p) →
      ∃ r ∈ buildJunctions roads within (f :: fs),
        r.coord = p ∧ r.jtype = some JuncType.ferry) := by
  constructor
  · rintro e ⟨g, hg, hge⟩ hiso hw
    have hnotroad : ∀ c : Coord, (∃ l ∈ roads, c ∈ l.coords) → c ≠ e := by
      rintro c ⟨l, hl, hcl⟩ rfl
      exact hiso l hl hcl
    have hese : e ∈ startEndPoints roads ++ startEndPoints (f :: fs) :=
      List.mem_append.mpr (Or.inr (mem_startEndPoints hg hge))
    have hAfilt : e ∈
        (symDiffDrop ((startEndPoints roads ++ startEndPoints (f :: fs)).map
            (fun q => (q, JuncType.deadEnd)))
          ((roadIntersections roads).map (fun q => (q, JuncType.intersection)))) := by
      unfold symDiffDrop
      refine List.mem_append.mpr (Or.inl ?_)
      refine List.mem_map.mpr ⟨(e, JuncType.deadEnd), ?_, rfl⟩
      rw [List.mem_filter]
      refine ⟨List.mem_map_of_mem _ hese, ?_⟩
      simp only [decide_eq_true_eq]
      intro hany
      rcases List.any_eq_true.mp hany with ⟨s, hsmem, hseq⟩
      rcases List.mem_map.mp hsmem with ⟨c, hc, rfl⟩
      simp only [decide_eq_true_eq] at hseq
      exact hnotroad c (roadIntersections_mem_road hc) hseq
    have hBfilt : (e, (none : Option JuncType)) ∈
        (symDiffKeepRight
          (symDiffDrop ((startEndPoints roads ++ startEndPoints (f :: fs)).map
              (fun q => (q, JuncType.deadEnd)))
            ((roadIntersections roads).map (fun q => (q, JuncType.intersection))))
          ((ferryIntersections roads (f :: fs)).map (fun q => (q, JuncType.ferry)))) := by
      unfold symDiffKeepRight
      refine List.mem_append.mpr (Or.inl ?_)
      refine List.mem_map.mpr ⟨e, ?_, rfl⟩
      rw [List.mem_filter]
      refine ⟨hAfilt, ?_⟩
      simp only [decide_eq_true_eq]
      intro hany
      rcases List.any_eq_true.mp hany with ⟨s, hsmem, hseq⟩
      rcases List.mem_map.mp hsmem with ⟨c, hc, rfl⟩
      simp only [decide_eq_true_eq] at hseq
      exact hnotroad c (ferryIntersections_mem_road hc) hseq
    constructor
    · refine ⟨{ coord := e, jtype := none,
                exitnbr := getAttributeForNode (getGraphForLines roads) e AttrField.exitnbr,
                accuracy := getAttributeForNode (getGraphForLines roads) e
                  AttrField.accuracy }, ?_, rfl, rfl⟩
      rw [buildJunctions_ferry_eq]
      refine List.mem_map.mpr ⟨(e, none), ?_, rfl⟩
      refine List.mem_append.mpr (Or.inr ?_)
      exact List.mem_map.mpr ⟨(e, none), hBfilt, by simp [hw]⟩
    · intro r hr hre
      rw [buildJunctions_ferry_eq] at hr
      rcases List.mem_map.mp hr with ⟨q, hq, rfl⟩
      have hqe : q.1 = e := hre
      rcases List.mem_append.mp hq with hq | hq
      · rcases List.mem_append.mp hq with hq | hq
        · rcases List.mem_map.mp hq with ⟨c, hc, rfl⟩
          exact absurd hqe (hnotroad c (roadIntersections_mem_road hc))
        · rcases List.mem_map.mp hq with ⟨c, hc, rfl⟩
          exact absurd hqe (hnotroad c (ferryIntersections_mem_road hc))
      · rcases List.mem_map.mp hq with ⟨s, hs, rfl⟩
        have hse : s.1 = e := by
          by_cases hwc : within s.1 = true <;> simpa [hwc] using hqe
        unfold symDiffKeepRight at hs
        rcases List.mem_append.mp hs with hs0 | hs0
        · rcases List.mem_map.mp hs0 with ⟨p0, _, rfl⟩
          have hp0 : p0 = e := hse
          subst hp0
          simp [hw]
        · rcases List.mem_map.mp hs0 with ⟨t0, ht0, rfl⟩
          rcases List.mem_map.mp (List.mem_filter.mp ht0).1 with ⟨c, hc, rfl⟩
          exact absurd hse (hnotroad c (ferryIntersections_mem_road hc))
  · rintro p ⟨r, hr, g, hg, hip⟩
    have hpmem : p ∈ ferryIntersections roads (f :: fs) := by
      unfold ferryIntersections
      exact List.mem_flatMap.mpr ⟨r, hr, List.mem_filterMap.mpr ⟨g, hg, hip⟩⟩
    refine ⟨{ coord := p, jtype := some JuncType.ferry,
              exitnbr := getAttributeForNode (getGraphForLines roads) p AttrField.exitnbr,
              accuracy := getAttributeForNode (getGraphForLines roads) p
                AttrField.accuracy }, ?_, rfl, rfl⟩
    rw [buildJunctions_ferry_eq]
    refine List.mem_map.mpr ⟨(p, some JuncType.ferry), ?_, rfl⟩
    exact List.mem_append.mpr (Or.inl
      (List.mem_append.mpr (Or.inr (List.mem_map_of_mem _ hpmem))))

/-- A road touching a ferry at `(1, 0)`, with the ferry's other
endpoint `(5, 5)` isolated from the road network. -/
def roadTouchingFerry : List Line × Line :=
  ([{ coords := [((0 : Int), (0 : Int)), (1, 0)] }],
   { coords := [((1 : Int), (0 : Int)), (5, 5)] })

/-- Witness for the amended C4 theorem: the isolated ferry endpoint
`(5, 5)` yields a junction row with null `junctype` and the shared
road/ferry vertex `(1, 0)` yields a `Ferry` junction. -/
theorem buildJunctions_ferry_rules_witness :
    (∃ r ∈ buildJunctions roadTouchingFerry.1 (fun _ => true) [roadTouchingFerry.2],
      r.coord = ((5 : Int), (5 : Int)) ∧ r.jtype = none) ∧
    (∃ r ∈ buildJunctions roadTouchingFerry.1 (fun _ => true) [roadTouchingFerry.2],
      r.coord = ((1 : Int), (0 : Int)) ∧ r.jtype = some JuncType.ferry) :=
  ⟨((buildJunctions_ferry_rules roadTouchingFerry.1 (fun _ => true) roadTouchingFerry.2
      []).1 (5, 5) (by decide) (by decide) rfl).1,
   (buildJunctions_ferry_rules roadTouchingFerry.1 (fun _ => true) roadTouchingFerry.2
      []).2 (1, 0) (by decide)⟩

/-! ### Helper lemmas about the KML embedding -/

theorem sqlUnescapeQuotes_cons {c : Char} (t : PStr) (hc : c ≠ '\'') :
    sqlUnescapeQuotes (c :: t) = c :: sqlUnescapeQuotes t := by
  cases t with
  | nil => rfl
  | cons d s =>
      rw [sqlUnescapeQuotes]
      rw [if_neg (fun h => hc h.1)]

theorem sqlUnescape_sqlEscape (s : PStr) : sqlUnescapeQuotes (sqlEscapeQuotes s) = s := by
  induction s with
  | nil => rfl
  | cons c cs ih =>
      rw [sqlEscapeQuotes]
      by_cases hc : c = '\''
      · subst hc
        rw [if_pos rfl]
        rw [sqlUnescapeQuotes, if_pos ⟨rfl, rfl⟩, ih]
      · rw [if_neg hc, sqlUnescapeQuotes_cons _ hc, ih]

theorem sqlEscape_of_no_quote {s : PStr} (h : '\'' ∉ s) : sqlEscapeQuotes s = s := by
  induction s with
  | nil => rfl
  | cons c cs ih =>
      rw [sqlEscapeQuotes, if_neg (fun hc => h (List.mem_cons.mpr (Or.inl hc.symm))),
        ih (fun hm => h (List.mem_cons_of_mem _ hm))]

theorem countP_enumFrom {α : Type} (p : α → Bool) (l : List α) (i : Nat) :
    List.countP (fun x => p x.2) (l.enumFrom i) = l.countP p := by
  induction l generalizing i with
  | nil => rfl
  | cons a t ih =>
      rw [List.enumFrom_cons, List.countP_cons, List.countP_cons, ih]

theorem length_matchRowids (df : List (PStr × PStr)) (n : PStr) :
    (matchRowids df n).length = df.countP (fun r => r.1 = n ∨ r.2 = n) := by
  unfold matchRowids
  rw [List.length_map, ← List.countP_eq_length_filter, List.enum]
  exact countP_enumFrom (fun r => r.1 = n ∨ r.2 = n) df 0

theorem countP_three_split (t : List (PStr × PStr)) (n : PStr) :
    t.countP (fun r => r.1 = n) + t.countP (fun r => r.1 ≠ r.2 ∧ r.2 = n) =
      t.countP (fun r => r.1 = n ∨ r.2 = n) := by
  induction t with
  | nil => rfl
  | cons hd tl ih =>
      obtain ⟨a, b⟩ := hd
      rw [List.countP_cons, List.countP_cons, List.countP_cons]
      by_cases han : a = n
      · by_cases hbn : b = n
        · have hab : a = b := han.trans hbn.symm
          rw [if_pos (by simp [han]), if_neg (by simp [hab]), if_pos (by simp [han])]
          omega
        · rw [if_pos (by simp [han]), if_neg (by simp [hbn]), if_pos (by simp [han])]
          omega
      · by_cases hbn : b = n
        · rw [if_neg (by simp [han]), if_pos (by simp [hbn, han]), if_pos (by simp [hbn])]
          omega
        · rw [if_neg (by simp [han]), if_neg (by simp [hbn]), if_neg (by simp [han, hbn])]
          omega

theorem seriesCount_eq_matchCount (df : List (PStr × PStr)) (n : PStr) :
    (kmlSeries df).count n = df.countP (fun r => r.1 = n ∨ r.2 = n) := by
  unfold kmlSeries
  rw [List.count_append, List.count_eq_countP, List.count_eq_countP, List.countP_map,
    List.countP_map, List.countP_filter, ← countP_three_split]
  congr 1
  · exact List.countP_congr (by intro x _; simp [Function.comp])
  · exact List.countP_congr (by intro x _; simp [Function.comp, and_comm])

theorem chunksGo_length_le {α : Type} (n : Nat) (fuel : Nat) (l : List α) :
    ∀ c ∈ chunksGo n fuel l, c.length ≤ n := by
  induction fuel generalizing l with
  | zero => intro c hc; cases hc
  | succ fuel ih =>
      intro c hc
      cases l with
      | nil => cases hc
      | cons x xs =>
          rw [chunksGo] at hc
          rcases List.mem_cons.mp hc with rfl | hc
          · rw [List.length_take]
            exact Nat.min_le_left _ _
          · exact ih _ c hc

theorem chunksGo_flatten {α : Type} (n : Nat) (hn : 0 < n) (fuel : Nat) (l : List α)
    (hf : l.length ≤ fuel) : (chunksGo n fuel l).flatten = l := by
  induction fuel generalizing l with
  | zero =>
      have : l = [] := List.length_eq_zero.mp (Nat.le_zero.mp hf)
      subst this
      rfl
  | succ fuel ih =>
      cases l with
      | nil => rfl
      | cons x xs =>
          rw [chunksGo, List.flatten_cons, ih _ (by simp at hf ⊢; omega),
            List.take_append_drop]

theorem chunksOf_length_le {α : Type} (n : Nat) (l : List α) :
    ∀ c ∈ chunksOf n l, c.length ≤ n :=
  chunksGo_length_le n l.length l

theorem chunksOf_flatten {α : Type} (n : Nat) (hn : 0 < n) (l : List α) :
    (chunksOf n l).flatten = l :=
  chunksGo_flatten n hn l.length l (Nat.le_refl _)

theorem snd_mem_of_mem_enumFrom {α : Type} {x : Nat × α} {l : List α} {i : Nat}
    (h : x ∈ l.enumFrom i) : x.2 ∈ l := by
  induction l generalizing i with
  | nil => cases h
  | cons a t ih =>
      rw [List.enumFrom_cons] at h
      rcases List.mem_cons.mp h with rfl | h
      · exact List.mem_cons_self a t
      · exact List.mem_cons_of_mem _ (ih h)

/-- C3 (amended): every emitted KML partition file holds at most the
250-feature cap; for a cap-exceeding placename containing no single
quote, the matching rows are split by ROWID into cap-sized chunks
emitted as `<name>_1`, `<name>_2`, …, whose concatenation is exactly
the matching row set; and for every placename at or under the cap
(quotes included, thanks to the SQL round-trip of the doubled quotes)
one file is emitted containing every row where either `l_placenam` or
`r_placenam` matches.  (For a cap-exceeding placename that does
contain a quote, no file at all is emitted — the chunk ROWIDs are
collected by comparing the already-sanitized name against the data,
which matches nothing; see the counterexample.) -/
theorem kmlExportFiles_cap_and_partition (df : List (PStr × PStr)) :
    (∀ fl ∈ kmlExportFiles df, fl.2.length ≤ 250) ∧
    (∀ name : PStr, '\'' ∉ name →
      250 < df.countP (fun r => r.1 = name ∨ r.2 = name) →
      ((∀ fl ∈ bigFilesFor df name, fl ∈ kmlExportFiles df) ∧
        ((bigFilesFor df name).map (fun fl => fl.2)).flatten = matchRowids df name)) ∧
    (∀ name : PStr, 0 < df.countP (fun r => r.1 = name ∨ r.2 = name) →
      df.countP (fun r => r.1 = name ∨ r.2 = name) ≤ 250 →
      (fileSafe (sqlEscapeQuotes name), matchRowids df name) ∈ kmlExportFiles df) := by
  refine ⟨?_, ?_, ?_⟩
  · intro fl hfl
    simp only [kmlExportFiles] at hfl
    rcases List.mem_append.mp hfl with hfl | hfl
    · rcases List.mem_map.mp hfl with ⟨s, hs, rfl⟩
      rcases List.mem_map.mp hs with ⟨n, hn, rfl⟩
      rcases List.mem_filter.mp hn with ⟨hnu, hncount⟩
      simp only [decide_eq_true_eq] at hncount
      show (matchRowids df (sqlUnescapeQuotes (sqlEscapeQuotes n))).length ≤ 250
      rw [sqlUnescape_sqlEscape, length_matchRowids, ← seriesCount_eq_matchCount]
      omega
    · rcases List.mem_flatMap.mp hfl with ⟨s, _, hmem⟩
      rcases List.mem_map.mp hmem with ⟨ci, hci, rfl⟩
      exact chunksOf_length_le 250 _ ci.2 (snd_mem_of_mem_enumFrom hci)
  · intro name hq hcount
    have hesc : sqlEscapeQuotes name = name := sqlEscape_of_no_quote hq
    have hser : 250 < (kmlSeries df).count name := by
      rw [seriesCount_eq_matchCount]; exact hcount
    have hnu : name ∈ uniqueFirst (kmlSeries df) :=
      (mem_uniqueFirst _ _).mpr (List.count_pos_iff.mp (by omega))
    have hbig : name ∈ ((uniqueFirst (kmlSeries df)).filter
        (fun n => 250 < (kmlSeries df).count n)).map sqlEscapeQuotes := by
      refine List.mem_map.mpr ⟨name, ?_, hesc⟩
      exact List.mem_filter.mpr ⟨hnu, by simpa using hser⟩
    constructor
    · intro fl hfl
      simp only [kmlExportFiles]
      refine List.mem_append.mpr (Or.inr ?_)
      exact List.mem_flatMap.mpr ⟨name, hbig, hfl⟩
    · show ((((chunksOf 250 (matchRowids df name)).enum.map
        (fun ci => (fileSafe name ++ '_' :: Nat.toDigits 10 (ci.1 + 1), ci.2))).map
          (fun fl => fl.2)).flatten = matchRowids df name)
      rw [List.map_map]
      have hfun : ((fun fl : PStr × List Nat => fl.2) ∘
          (fun ci : Nat × List Nat =>
            (fileSafe name ++ '_' :: Nat.toDigits 10 (ci.1 + 1), ci.2))) = Prod.snd := rfl
      rw [hfun, List.enum_map_snd]
      exact chunksOf_flatten 250 (by omega) _
  · intro name hpos hle
    have hser : (kmlSeries df).count name ≤ 250 := by
      rw [seriesCount_eq_matchCount]; exact hle
    have hnu : name ∈ uniqueFirst (kmlSeries df) := by
      refine (mem_uniqueFirst _ _).mpr (List.count_pos_iff.mp ?_)
      rw [seriesCount_eq_matchCount]
      omega
    simp only [kmlExportFiles]
    refine List.mem_append.mpr (Or.inl ?_)
    refine List.mem_map.mpr ⟨sqlEscapeQuotes name, ?_, ?_⟩
    · refine List.mem_map.mpr ⟨name, ?_, rfl⟩
      refine List.mem_filter.mpr ⟨hnu, ?_⟩
      simpa using hser
    · rw [sqlUnescape_sqlEscape]

/-- 251 identical rows naming the quoted placename `O'T` on both
sides. -/
def kmlQuoteRows : List (PStr × PStr) :=
  List.replicate 251 ("O'T".data, "O'T".data)

set_option maxRecDepth 40000 in
/-- C3 counterexample: the placename `O'T` matches 251 rows
(cap-exceeding), yet the KML export emits no partition file at all for
it — the exceeded branch collects ROWIDs by comparing the sanitized
name `O''T` against the data, which matches nothing, so the claimed
`<placename>_1`, `<placename>_2` files (sizes 250 and 1) never
appear. -/
theorem kmlExportFiles_quoted_placename_lost :
    kmlQuoteRows.countP (fun r => r.1 = "O'T".data ∨ r.2 = "O'T".data) = 251 ∧
    kmlExportFiles kmlQuoteRows = [] := by
  decide

/-- 251 rows of the quote-free placename `T`, and a two-row frame
with placenames `A` and `B`. -/
def kmlBigRows : List (PStr × PStr) :=
  List.replicate 251 ("T".data, "T".data)

/-- Two-row frame: left side always `A`, right side `A` then `B`. -/
def kmlSmallRows : List (PStr × PStr) :=
  [("A".data, "A".data), ("A".data, "B".data)]

set_option maxRecDepth 40000 in
/-- Witness for the amended C3 theorem: the 251-row placename `T` is
chunked into files whose concatenation is the matching row set, and
the small placename `A` receives one file with every matching row. -/
theorem kmlExportFiles_cap_and_partition_witness :
    ((bigFilesFor kmlBigRows "T".data).map (fun fl => fl.2)).flatten =
      matchRowids kmlBigRows "T".data ∧
    (fileSafe (sqlEscapeQuotes "A".data), matchRowids kmlSmallRows "A".data) ∈
      kmlExportFiles kmlSmallRows :=
  ⟨((kmlExportFiles_cap_and_partition kmlBigRows).2.1 "T".data (by decide) (by decide)).2,
   (kmlExportFiles_cap_and_partition kmlSmallRows).2.2 "A".data (by decide) (by decide)⟩

/-! ### Helper lemmas about the strplaname embedding -/

theorem find?_eq_some_of_unique {α : Type} {p : α → Bool} {l : List α} {r : α}
    (hr : r ∈ l) (hp : p r = true) (huniq : ∀ s ∈ l, p s = true → s = r) :
    l.find? p = some r := by
  induction l with
  | nil => cases hr
  | cons a t ih =>
      by_cases ha : p a = true
      · have : a = r := huniq a (List.mem_cons_self a t) ha
        subst this
        simp [List.find?_cons, ha]
      · have har : a ≠ r := fun h => ha (h ▸ hp)
        rw [List.find?_cons]
        rw [Bool.eq_false_iff.mpr ha]
        exact ih (by rcases List.mem_cons.mp hr with h | h; exact absurd h.symm har; exact h)
          (fun s hs hps => huniq s (List.mem_cons_of_mem _ hs) hps)

theorem find?_nid_of_nodup {strp : List DRow} {r : DRow}
    (hnodup : (strp.map (fun x => x.nid)).Nodup) (hr : r ∈ strp) :
    strp.find? (fun s => s.nid = r.nid) = some r := by
  refine find?_eq_some_of_unique hr (by simp) ?_
  intro s hs hps
  simp only [decide_eq_true_eq] at hps
  exact List.inj_on_of_nodup_map hnodup hs hr hps

theorem mem_dropDupRows (x : DRow) (seen : List (List String)) (l : List DRow) :
    x ∈ dropDupRows seen l ↔
      x ∈ l ∧ x.data ∉ seen ∧ l.find? (fun s => s.data = x.data) = some x := by
  induction l generalizing seen with
  | nil => simp [dropDupRows]
  | cons r t ih =>
      rw [dropDupRows]
      by_cases hseen : r.data ∈ seen
      · rw [if_pos hseen, ih]
        constructor
        · rintro ⟨hxt, hxs, hfind⟩
          have hrd : ¬ r.data = x.data := fun h => hxs (h ▸ hseen)
          refine ⟨List.mem_cons_of_mem _ hxt, hxs, ?_⟩
          rw [List.find?_cons_of_neg _ (by simpa using hrd)]
          exact hfind
        · rintro ⟨hxm, hxs, hfind⟩
          have hrd : ¬ r.data = x.data := fun h => hxs (h ▸ hseen)
          rw [List.find?_cons_of_neg _ (by simpa using hrd)] at hfind
          rcases List.mem_cons.mp hxm with rfl | hxt
          · exact absurd rfl hrd
          · exact ⟨hxt, hxs, hfind⟩
      · rw [if_neg hseen]
        constructor
        · intro hx
          rcases List.mem_cons.mp hx with rfl | hx
          · exact ⟨List.mem_cons_self x t, hseen,
              List.find?_cons_of_pos _ (by simp)⟩
          · rcases (ih (r.data :: seen)).mp hx with ⟨hxt, hxs, hfind⟩
            have hrd : ¬ r.data = x.data := fun h => hxs (h ▸ List.mem_cons_self _ _)
            refine ⟨List.mem_cons_of_mem _ hxt,
              fun h => hxs (List.mem_cons_of_mem _ h), ?_⟩
            rw [List.find?_cons_of_neg _ (by simpa using hrd)]
            exact hfind
        · rintro ⟨hxm, hxs, hfind⟩
          by_cases hrd : r.data = x.data
          · rw [List.find?_cons_of_pos _ (by simpa using hrd)] at hfind
            simp only [Option.some.injEq] at hfind
            subst hfind
            exact List.mem_cons_self r _
          · rw [List.find?_cons_of_neg _ (by simpa using hrd)] at hfind
            rcases List.mem_cons.mp hxm with rfl | hxt
            · exact absurd rfl hrd
            · refine List.mem_cons_of_mem _ ((ih (r.data :: seen)).mpr
                ⟨hxt, ?_, hfind⟩)
              simp only [List.mem_cons]
              rintro (h | h)
              · exact hrd h.symm
              · exact hxs h

theorem dropDupRows_sublist (seen : List (List String)) (l : List DRow) :
    (dropDupRows seen l).Sublist l := by
  induction l generalizing seen with
  | nil => simp [dropDupRows]
  | cons r t ih =>
      rw [dropDupRows]
      by_cases hseen : r.data ∈ seen
      · rw [if_pos hseen]
        exact (ih seen).cons r
      · rw [if_neg hseen]
        exact (ih (r.data :: seen)).cons₂ r

/-- C6: after the de-duplication pass, a strplaname row survives iff
it is the first-occurring row among those with identical values across
all non-identifier columns; the three referencing columns
(`addrange.l_offnanid`, `addrange.r_offnanid`,
`altnamlink.strnamenid`) are rewritten through the survivor lookup;
every reference to a surviving row is left unchanged, and every
strplaname nid is mapped to the nid of a surviving row carrying the
same non-identifier values. -/
theorem filterAndRelink_spec (strp : List DRow) (lOff rOff strnam : List String)
    (hnodup : (strp.map (fun r => r.nid)).Nodup) :
    (∀ r ∈ strp, (r ∈ (filterAndRelink strp lOff rOff strnam).1 ↔
      strp.find? (fun s => s.data = r.data) = some r)) ∧
    ((filterAndRelink strp lOff rOff strnam).2.1 = lOff.map (survivorNid strp) ∧
      (filterAndRelink strp lOff rOff strnam).2.2.1 = rOff.map (survivorNid strp) ∧
      (filterAndRelink strp lOff rOff strnam).2.2.2 = strnam.map (survivorNid strp)) ∧
    (∀ r ∈ strp, r ∈ (filterAndRelink strp lOff rOff strnam).1 →
      survivorNid strp r.nid = r.nid) ∧
    (∀ r ∈ strp, ∃ s ∈ (filterAndRelink strp lOff rOff strnam).1,
      s.nid = survivorNid strp r.nid ∧ s.data = r.data) := by
  have hout1 : (filterAndRelink strp lOff rOff strnam).1 = dropDupRows [] strp := by
    unfold filterAndRelink
    by_cases hlen : strp.length = (dropDupRows [] strp).length
    · rw [if_pos hlen]
      exact ((dropDupRows_sublist [] strp).eq_of_length hlen.symm).symm
    · rw [if_neg hlen]
  have hmem : ∀ r ∈ strp, (r ∈ (filterAndRelink strp lOff rOff strnam).1 ↔
      strp.find? (fun s => s.data = r.data) = some r) := by
    intro r hr
    rw [hout1, mem_dropDupRows]
    simp [hr]
  have hsurv_id : ∀ r ∈ strp, r ∈ (filterAndRelink strp lOff rOff strnam).1 →
      survivorNid strp r.nid = r.nid := by
    intro r hr hrout
    have hfind := (hmem r hr).mp hrout
    unfold survivorNid
    rw [find?_nid_of_nodup hnodup hr, Option.some_bind, hfind]
    rfl
  have hcols : (filterAndRelink strp lOff rOff strnam).2.1 = lOff.map (survivorNid strp) ∧
      (filterAndRelink strp lOff rOff strnam).2.2.1 = rOff.map (survivorNid strp) ∧
      (filterAndRelink strp lOff rOff strnam).2.2.2 = strnam.map (survivorNid strp) := by
    unfold filterAndRelink
    by_cases hlen : strp.length = (dropDupRows [] strp).length
    · rw [if_pos hlen]
      have heq : dropDupRows [] strp = strp :=
        (dropDupRows_sublist [] strp).eq_of_length hlen.symm
      have hid : ∀ v : String, survivorNid strp v = v := by
        intro v
        unfold survivorNid
        cases hf : strp.find? (fun r => r.nid = v) with
        | none => rfl
        | some r =>
            have hrmem := List.mem_of_find?_eq_some hf
            have hrv : r.nid = v := by simpa using List.find?_some hf
            have hrfirst : strp.find? (fun s => s.data = r.data) = some r := by
              have : r ∈ dropDupRows [] strp := heq.symm ▸ hrmem
              exact ((mem_dropDupRows r [] strp).mp this).2.2
            rw [Option.some_bind, hrfirst]
            exact hrv
      have hmapid : ∀ col : List String, col.map (survivorNid strp) = col := by
        intro col
        rw [show survivorNid strp = id from funext hid, List.map_id]
      exact ⟨(hmapid lOff).symm, (hmapid rOff).symm, (hmapid strnam).symm⟩
    · rw [if_neg hlen]
      exact ⟨rfl, rfl, rfl⟩
  refine ⟨hmem, hcols, hsurv_id, ?_⟩
  intro r hr
  have hex : (strp.find? (fun s => s.data = r.data)).isSome := by
    rw [List.find?_isSome]
    exact ⟨r, hr, by simp⟩
  rcases Option.isSome_iff_exists.mp hex with ⟨s, hs⟩
  have hsmem := List.mem_of_find?_eq_some hs
  have hsdata : s.data = r.data := by simpa using List.find?_some hs
  refine ⟨s, ?_, ?_, hsdata⟩
  · rw [hout1, mem_dropDupRows]
    refine ⟨hsmem, by simp, ?_⟩
    rw [hsdata]
    exact hs
  · unfold survivorNid
    rw [find?_nid_of_nodup hnodup hr, Option.some_bind, hs]
    rfl

/-- Three strplaname rows, the first two sharing their
non-identifier values. -/
def dedupRows : List DRow :=
  [{ nid := "a", uuid := "ua", data := ["X"] },
   { nid := "b", uuid := "ub", data := ["X"] },
   { nid := "c", uuid := "uc", data := ["Y"] }]

/-- Witness for C6: the reference to the removed nid `b` is rewritten
to the survivor `a`, while the reference to the survivor `c` is kept. -/
theorem filterAndRelink_spec_witness :
    (filterAndRelink dedupRows ["b"] ["a"] ["c"]).2.1 = ["a"] ∧
    (filterAndRelink dedupRows ["b"] ["a"] ["c"]).2.2.2 = ["c"] := by
  have h := filterAndRelink_spec dedupRows ["b"] ["a"] ["c"] (by decide)
  have h1 := h.2.1.1
  have h2 := h.2.1.2.2
  rw [h1, h2]
  decide

/-! ### Theorems about the strplaname split -/

/-- A one-row strplaname frame with one packed column. -/
def splitOneRow : List SRow :=
  [{ nid := "n0", uuid := "u0", data := [.pair "Main" "First"] }]

/-- C5 counterexample: the claim says each of the two copies receives
a fresh `nid` and `uuid`, but the left copy keeps the original
identifiers: splitting the single row (nid `n0`, uuid `u0`) yields a
left copy still carrying `n0`/`u0` — only the right copy receives the
fresh `n1`/`u1`. -/
theorem splitStrplaname_left_copy_keeps_ids :
    (splitStrplaname splitOneRow ["n1"] ["u1"]).1 =
      [{ nid := "n0", uuid := "u0", data := [.single "Main"] },
       { nid := "n1", uuid := "u1", data := [.single "First"] }] ∧
    "n0" ∈ splitOneRow.map (fun r => r.nid) := by
  decide

theorem getD_mem_of_lt {α : Type} (l : List α) (i : Nat) (d : α) (h : i < l.length) :
    l.getD i d ∈ l := by
  rw [List.getD_eq_getElem l d h]
  exact List.getElem_mem h

theorem lookupNid_zip_getD (ks vs : List String) (hlen : vs.length = ks.length)
    (hnd : ks.Nodup) (i : Nat) (hi : i < ks.length) :
    lookupNid (ks.zip vs) (ks.getD i "") = vs.getD i "" := by
  induction ks generalizing vs i with
  | nil => cases hi
  | cons k kt ih =>
      cases vs with
      | nil => simp at hlen
      | cons v vt =>
          cases i with
          | zero =>
              simp only [List.getD_cons_zero]
              unfold lookupNid
              rw [List.zip_cons_cons, List.find?_cons_of_pos _ (by simp)]
              rfl
          | succ j =>
              simp only [List.getD_cons_succ]
              have hj : j < kt.length := by simpa using hi
              have hne : k ≠ kt.getD j "" := by
                intro h
                exact (List.nodup_cons.mp hnd).1 (h ▸ getD_mem_of_lt kt j "" hj)
              unfold lookupNid
              rw [List.zip_cons_cons, List.find?_cons_of_neg _ (by simpa using hne)]
              exact ih vt (by simpa using hlen) (List.nodup_cons.mp hnd).2 j hj

/-- C5 (amended): when the strplaname frame has packed (left,right)
columns, the split produces for each original row a left copy holding
the index-0 element — RETAINING the original `nid` and `uuid` — and a
right copy holding the index-1 element with a fresh `nid` and `uuid`;
the produced lookup maps each original `nid` to the corresponding
right-side fresh `nid` (so `addrange.r_offnanid` values, all original
nids, are rewritten to the right copies' nids via
`relinkColumn`/`lookupNid`). -/
theorem splitStrplaname_spec (df : List SRow) (newNids newUuids : List String)
    (hn : newNids.length = df.length) (hu : newUuids.length = df.length)
    (hcols : nestedColsOf df ≠ []) :
    ((splitStrplaname df newNids newUuids).1 =
      df.map (applyAt (nestedColsOf df) PackedVal.get0) ++
        (df.zip (newNids.zip newUuids)).map (fun x =>
          { nid := x.2.1, uuid := x.2.2,
            data := (applyAt (nestedColsOf df) PackedVal.get1 x.1).data }) ∧
    (splitStrplaname df newNids newUuids).2 = (df.map (fun r => r.nid)).zip newNids) ∧
    ((df.map (fun r => r.nid)).Nodup → ∀ i, i < df.length →
      lookupNid (splitStrplaname df newNids newUuids).2
        ((df.map (fun r => r.nid)).getD i "") = newNids.getD i "") := by
  have hzlen : (newNids.zip newUuids).length = df.length := by
    rw [List.length_zip, hn, hu]
    exact Nat.min_self _
  have hrows : (splitStrplaname df newNids newUuids).1 =
      df.map (applyAt (nestedColsOf df) PackedVal.get0) ++
        (df.zip (newNids.zip newUuids)).map (fun x =>
          { nid := x.2.1, uuid := x.2.2,
            data := (applyAt (nestedColsOf df) PackedVal.get1 x.1).data }) := by
    unfold splitStrplaname
    rw [if_neg hcols]
    rw [List.zip_map_left, List.map_map]
    rfl
  have hlk : (splitStrplaname df newNids newUuids).2 =
      (df.map (fun r => r.nid)).zip newNids := by
    unfold splitStrplaname
    rw [if_neg hcols]
    have h1 : (df.map (applyAt (nestedColsOf df) PackedVal.get0)).map (fun r => r.nid) =
        df.map (fun r => r.nid) := by
      rw [List.map_map]
      rfl
    have h2 : (((df.map (applyAt (nestedColsOf df) PackedVal.get1)).zip
        (newNids.zip newUuids)).map (fun x =>
          { x.1 with nid := x.2.1, uuid := x.2.2 })).map (fun r => r.nid) = newNids := by
      rw [List.map_map]
      have hstep : ((df.map (applyAt (nestedColsOf df) PackedVal.get1)).zip
          (newNids.zip newUuids)).map
            ((fun r : SRow => r.nid) ∘ (fun x => { x.1 with nid := x.2.1, uuid := x.2.2 })) =
          ((df.map (applyAt (nestedColsOf df) PackedVal.get1)).zip
            (newNids.zip newUuids)).map (Prod.fst ∘ Prod.snd) := rfl
      rw [hstep, ← List.map_map, List.map_snd_zip, List.map_fst_zip]
      · rw [hn, hu]
      · rw [hzlen, List.length_map]
    simp only [h1, h2]
  refine ⟨⟨hrows, hlk⟩, ?_⟩
  intro hnodup i hi
  rw [hlk]
  exact lookupNid_zip_getD _ newNids (by rw [hn, List.length_map])
    hnodup i (by rwa [List.length_map])

/-- A two-row packed strplaname frame. -/
def splitTwoRows : List SRow :=
  [{ nid := "p", uuid := "up", data := [.pair "L1" "R1"] },
   { nid := "q", uuid := "uq", data := [.pair "L2" "R2"] }]

/-- Witness for the amended C5 theorem: splitting the two-row frame
keeps `p`/`q` on the left copies, assigns `x1`/`x2` to the right
copies, and maps the original nid `q` to `x2`. -/
theorem splitStrplaname_spec_witness :
    (splitStrplaname splitTwoRows ["x1", "x2"] ["y1", "y2"]).2 =
      (splitTwoRows.map (fun r => r.nid)).zip ["x1", "x2"] ∧
    lookupNid (splitStrplaname splitTwoRows ["x1", "x2"] ["y1", "y2"]).2
      ((splitTwoRows.map (fun r => r.nid)).getD 1 "") = ["x1", "x2"].getD 1 "" := by
  have h := splitStrplaname_spec splitTwoRows ["x1", "x2"] ["y1", "y2"]
    (by decide) (by decide) (by decide)
  exact ⟨h.1.2, h.2 (by decide) 1 (by decide)⟩

/-- C10: when no condition evaluates true, `conditional_values`
returns the first input value whenever `else_value` is falsy (`None`,
`0`, the empty string or `False`), and returns `else_value` itself only
when it is truthy. -/
theorem conditionalValues_falsy_else (v : PyVal) (vs : List PyVal)
    (conds : List (Bool × PyVal)) (elseValue : PyVal)
    (hall : ∀ c ∈ conds, c.1 = false) :
    conditionalValues (v :: vs) conds elseValue =
      if pyTruthy elseValue then elseValue else v := by
  unfold conditionalValues
  have hfind : conds.find? (fun c => c.1) = none := by
    apply List.find?_eq_none.mpr
    intro c hc
    simp [hall c hc]
  rw [hfind]
  simp

/-- Witness for C10: with a single false condition and the falsy
else-value `0`, the first input value is returned. -/
theorem conditionalValues_falsy_else_witness :
    conditionalValues [PyVal.vStr "keep", PyVal.vStr "other"]
      [(false, PyVal.vStr "branch")] (PyVal.vInt 0) = PyVal.vStr "keep" := by
  have h := conditionalValues_falsy_else (PyVal.vStr "keep") [PyVal.vStr "other"]
    [(false, PyVal.vStr "branch")] (PyVal.vInt 0) (by decide)
  simpa using h

/-! ### Helper lemmas about the cleaning embedding -/

theorem char_toNat_ofNat_valid (n : Nat) (h : n < 55296) : (Char.ofNat n).toNat = n := by
  unfold Char.ofNat
  rw [dif_pos (Or.inl h)]
  rfl

theorem char_eq_of_toNat_eq {c d : Char} (h : c.toNat = d.toNat) : c = d :=
  Char.ext (UInt32.ext h)

theorem toNat_lowerChar (c : Char) :
    (lowerChar c).toNat = if 65 ≤ c.toNat ∧ c.toNat ≤ 90 then c.toNat + 32 else c.toNat := by
  unfold lowerChar
  split_ifs with h
  · exact char_toNat_ofNat_valid _ (by omega)
  · rfl

theorem toNat_upperChar (c : Char) :
    (upperChar c).toNat = if 97 ≤ c.toNat ∧ c.toNat ≤ 122 then c.toNat - 32 else c.toNat := by
  unfold upperChar
  split_ifs with h
  · exact char_toNat_ofNat_valid _ (by omega)
  · rfl

theorem lowerChar_lowerChar (c : Char) : lowerChar (lowerChar c) = lowerChar c := by
  apply char_eq_of_toNat_eq
  rw [toNat_lowerChar, toNat_lowerChar]
  split_ifs <;> omega

theorem upperChar_upperChar (c : Char) : upperChar (upperChar c) = upperChar c := by
  apply char_eq_of_toNat_eq
  rw [toNat_upperChar, toNat_upperChar]
  split_ifs <;> omega

theorem isCased_lowerChar (c : Char) : isCasedChar (lowerChar c) = isCasedChar c := by
  rw [Bool.eq_iff_iff]
  simp only [isCasedChar, isUpperChar, isLowerChar, Bool.or_eq_true, decide_eq_true_eq,
    toNat_lowerChar]
  split_ifs <;> omega

theorem isCased_upperChar (c : Char) : isCasedChar (upperChar c) = isCasedChar c := by
  rw [Bool.eq_iff_iff]
  simp only [isCasedChar, isUpperChar, isLowerChar, Bool.or_eq_true, decide_eq_true_eq,
    toNat_upperChar]
  split_ifs <;> omega

theorem isUpper_lowerChar (c : Char) : isUpperChar (lowerChar c) = false := by
  simp only [isUpperChar, toNat_lowerChar, decide_eq_false_iff_not]
  split_ifs <;> omega

theorem lowerChar_eq_self (c : Char) (h : isUpperChar c = false) : lowerChar c = c := by
  simp only [isUpperChar, decide_eq_false_iff_not] at h
  exact if_neg h

theorem space_iff_lowerChar (c : Char) : (lowerChar c = ' ') ↔ c = ' ' := by
  constructor
  · intro h
    apply char_eq_of_toNat_eq
    have h32 : (' ' : Char).toNat = 32 := rfl
    have hc := congrArg Char.toNat h
    rw [toNat_lowerChar, h32] at hc
    rw [h32]
    split_ifs at hc <;> omega
  · intro h
    rw [h]
    decide

theorem space_iff_upperChar (c : Char) : (upperChar c = ' ') ↔ c = ' ' := by
  constructor
  · intro h
    apply char_eq_of_toNat_eq
    have h32 : (' ' : Char).toNat = 32 := rfl
    have hc := congrArg Char.toNat h
    rw [toNat_upperChar, h32] at hc
    rw [h32]
    split_ifs at hc <;> omega
  · intro h
    rw [h]
    decide

theorem pyIsSpace_lowerChar (c : Char) : pyIsSpace (lowerChar c) = pyIsSpace c := by
  rw [Bool.eq_iff_iff]
  simp only [pyIsSpace, decide_eq_true_eq, toNat_lowerChar]
  split_ifs <;> omega

theorem pyIsSpace_upperChar (c : Char) : pyIsSpace (upperChar c) = pyIsSpace c := by
  rw [Bool.eq_iff_iff]
  simp only [pyIsSpace, decide_eq_true_eq, toNat_upperChar]
  split_ifs <;> omega

theorem nonspace_of_cased (c : Char) (h : isCasedChar c = true) : pyIsSpace c = false := by
  simp only [isCasedChar, isUpperChar, isLowerChar, Bool.or_eq_true, decide_eq_true_eq] at h
  simp only [pyIsSpace, decide_eq_false_iff_not]
  omega

theorem ne_space_of_nonspace (c : Char) (h : pyIsSpace c = false) : c ≠ ' ' := by
  intro h0
  rw [h0] at h
  exact absurd h (by decide)

theorem collapseGo_cons_space_true (cs : PStr) :
    collapseGo true (' ' :: cs) = collapseGo true cs := by
  rw [collapseGo]
  simp

theorem collapseGo_cons_space_false (cs : PStr) :
    collapseGo false (' ' :: cs) = ' ' :: collapseGo true cs := by
  rw [collapseGo]
  simp

theorem collapseGo_cons_nonspace (b : Bool) (c : Char) (cs : PStr) (hc : c ≠ ' ') :
    collapseGo b (c :: cs) = c :: collapseGo false cs := by
  rw [collapseGo]
  simp [hc]

theorem collapseGo_length_le (b : Bool) (s : PStr) : (collapseGo b s).length ≤ s.length := by
  induction s generalizing b with
  | nil => simp [collapseGo]
  | cons c cs ih =>
    by_cases hc : c = ' '
    · subst hc
      by_cases hb : b = true
      · subst hb
        rw [collapseGo_cons_space_true]
        exact le_trans (ih true) (Nat.le_succ _)
      · have hb' : b = false := by simpa using hb
        subst hb'
        rw [collapseGo_cons_space_false]
        exact Nat.succ_le_succ (ih true)
    · rw [collapseGo_cons_nonspace b c cs hc]
      exact Nat.succ_le_succ (ih false)

theorem collapseGo_collapseGo (b : Bool) (s : PStr) :
    collapseGo b (collapseGo b s) = collapseGo b s := by
  induction s generalizing b with
  | nil => rfl
  | cons c cs ih =>
    by_cases hc : c = ' '
    · subst hc
      by_cases hb : b = true
      · subst hb
        rw [collapseGo_cons_space_true]
        exact ih true
      · have hb' : b = false := by simpa using hb
        subst hb'
        rw [collapseGo_cons_space_false, collapseGo_cons_space_false, ih true]
    · rw [collapseGo_cons_nonspace b c cs hc, collapseGo_cons_nonspace b c _ hc, ih false]

theorem mem_collapseGo (b : Bool) (s : PStr) (c : Char) (h : c ∈ collapseGo b s) : c ∈ s := by
  induction s generalizing b with
  | nil => simp [collapseGo] at h
  | cons x xs ih =>
    by_cases hx : x = ' '
    · subst hx
      by_cases hb : b = true
      · subst hb
        rw [collapseGo_cons_space_true] at h
        exact List.mem_cons_of_mem _ (ih true h)
      · have hb' : b = false := by simpa using hb
        subst hb'
        rw [collapseGo_cons_space_false] at h
        rcases List.mem_cons.mp h with h1 | h1
        · rw [h1]
          exact List.mem_cons_self _ xs
        · exact List.mem_cons_of_mem _ (ih true h1)
    · rw [collapseGo_cons_nonspace b x xs hx] at h
      rcases List.mem_cons.mp h with h1 | h1
      · rw [h1]
        exact List.mem_cons_self x xs
      · exact List.mem_cons_of_mem x (ih false h1)

theorem mem_collapseGo_of_mem (b : Bool) (s : PStr) (c : Char) (hc : c ≠ ' ') (h : c ∈ s) :
    c ∈ collapseGo b s := by
  induction s generalizing b with
  | nil => simp at h
  | cons x xs ih =>
    by_cases hx : x = ' '
    · subst hx
      have hmem : c ∈ xs := by
        rcases List.mem_cons.mp h with h1 | h1
        · exact absurd h1 hc
        · exact h1
      by_cases hb : b = true
      · subst hb
        rw [collapseGo_cons_space_true]
        exact ih true hmem
      · have hb' : b = false := by simpa using hb
        subst hb'
        rw [collapseGo_cons_space_false]
        exact List.mem_cons_of_mem _ (ih true hmem)
    · rw [collapseGo_cons_nonspace b x xs hx]
      rcases List.mem_cons.mp h with h1 | h1
      · rw [h1]
        exact List.mem_cons_self x _
      · exact List.mem_cons_of_mem x (ih false h1)

theorem getLast?_collapseGo (b : Bool) (s : PStr) (c : Char) (hs : s.getLast? = some c)
    (hc : c ≠ ' ') : (collapseGo b s).getLast? = some c := by
  induction s generalizing b with
  | nil => simp at hs
  | cons x xs ih =>
    cases xs with
    | nil =>
      have hs' : x = c := by simpa using hs
      have hx : x ≠ ' ' := by rw [hs']; exact hc
      rw [collapseGo_cons_nonspace b x [] hx]
      simp [collapseGo, hs']
    | cons y rest =>
      rw [List.getLast?_cons_cons] at hs
      by_cases hx : x = ' '
      · subst hx
        by_cases hb : b = true
        · subst hb
          rw [collapseGo_cons_space_true]
          exact ih true hs
        · have hb' : b = false := by simpa using hb
          subst hb'
          rw [collapseGo_cons_space_false]
          have hR := ih true hs
          rcases hE : collapseGo true (y :: rest) with _ | ⟨r, R⟩
          · rw [hE] at hR
            simp at hR
          · rw [hE] at hR
            rw [List.getLast?_cons_cons]
            exact hR
      · rw [collapseGo_cons_nonspace b x _ hx]
        have hR := ih false hs
        rcases hE : collapseGo false (y :: rest) with _ | ⟨r, R⟩
        · rw [hE] at hR
          simp at hR
        · rw [hE] at hR
          rw [List.getLast?_cons_cons]
          exact hR

theorem head?_collapseGo (s : PStr) (c : Char) (hs : s.head? = some c) (hc : c ≠ ' ') :
    (collapseGo false s).head? = some c := by
  cases s with
  | nil => simp at hs
  | cons x xs =>
    have hs' : x = c := by simpa using hs
    have hx : x ≠ ' ' := by rw [hs']; exact hc
    rw [collapseGo_cons_nonspace false x xs hx]
    rw [List.head?_cons, hs']

theorem getLast?_dropWhile (p : Char → Bool) (l : PStr) (h : l.dropWhile p ≠ []) :
    (l.dropWhile p).getLast? = l.getLast? := by
  induction l with
  | nil => simp at h
  | cons x xs ih =>
    by_cases hx : p x = true
    · rw [List.dropWhile_cons_of_pos hx] at h ⊢
      have hxs : xs ≠ [] := by
        intro h0
        rw [h0] at h
        simp at h
      rcases hE : xs with _ | ⟨y, rest⟩
      · exact absurd hE hxs
      · subst hE
        rw [List.getLast?_cons_cons]
        exact ih h
    · rw [List.dropWhile_cons_of_neg hx]

theorem head?_pyStrip (s : PStr) (c : Char) (h : (pyStrip s).head? = some c) :
    pyIsSpace c = false := by
  unfold pyStrip at h
  rw [List.head?_reverse] at h
  have hne : (s.dropWhile pyIsSpace).reverse.dropWhile pyIsSpace ≠ [] := by
    intro h0
    rw [h0] at h
    simp at h
  rw [getLast?_dropWhile _ _ hne, List.getLast?_reverse] at h
  have hd := List.head?_dropWhile_not pyIsSpace s
  rw [h] at hd
  exact hd

theorem getLast?_pyStrip (s : PStr) (c : Char) (h : (pyStrip s).getLast? = some c) :
    pyIsSpace c = false := by
  unfold pyStrip at h
  rw [List.getLast?_reverse] at h
  have hd := List.head?_dropWhile_not pyIsSpace (s.dropWhile pyIsSpace).reverse
  rw [h] at hd
  exact hd

theorem dropWhile_eq_self_of_head? (p : Char → Bool) (l : PStr)
    (h : ∀ c, l.head? = some c → p c = false) : l.dropWhile p = l := by
  cases l with
  | nil => rfl
  | cons x xs =>
    exact List.dropWhile_cons_of_neg (by simp [h x rfl])

theorem pyStrip_eq_self (s : PStr)
    (h1 : ∀ c, s.head? = some c → pyIsSpace c = false)
    (h2 : ∀ c, s.getLast? = some c → pyIsSpace c = false) : pyStrip s = s := by
  unfold pyStrip
  rw [dropWhile_eq_self_of_head? _ _ h1]
  rw [dropWhile_eq_self_of_head? _ _ (fun c hc => h2 c (by rwa [List.head?_reverse] at hc))]
  exact List.reverse_reverse s

theorem head?_cleanWhitespace (s : PStr) (c : Char) (h : (cleanWhitespace s).head? = some c) :
    pyIsSpace c = false := by
  unfold cleanWhitespace collapseSpaces at h
  rcases hE : pyStrip s with _ | ⟨x, xs⟩
  · rw [hE] at h
    simp [collapseGo] at h
  · have hx : pyIsSpace x = false := head?_pyStrip s x (by rw [hE]; rfl)
    have hxs : x ≠ ' ' := ne_space_of_nonspace x hx
    rw [hE, collapseGo_cons_nonspace false x xs hxs, List.head?_cons] at h
    have hxc : x = c := by simpa using h
    rw [← hxc]
    exact hx

theorem getLast?_cleanWhitespace (s : PStr) (c : Char)
    (h : (cleanWhitespace s).getLast? = some c) : pyIsSpace c = false := by
  unfold cleanWhitespace collapseSpaces at h
  rcases hE : pyStrip s with _ | ⟨x, xs⟩
  · rw [hE] at h
    simp [collapseGo] at h
  · have hlast : ∃ c₀, (x :: xs).getLast? = some c₀ := by
      rcases hL : (x :: xs).getLast? with _ | ⟨c₀⟩
      · simp at hL
      · exact ⟨c₀, rfl⟩
    obtain ⟨c₀, hc₀⟩ := hlast
    have hc₀s : pyIsSpace c₀ = false := getLast?_pyStrip s c₀ (by rw [hE]; exact hc₀)
    have := getLast?_collapseGo false (x :: xs) c₀ hc₀ (ne_space_of_nonspace c₀ hc₀s)
    rw [hE] at h
    rw [this] at h
    have hcc : c₀ = c := by simpa using h
    rw [← hcc]
    exact hc₀s

theorem mem_cleanWhitespace (s : PStr) (c : Char) (h : c ∈ cleanWhitespace s) : c ∈ s := by
  unfold cleanWhitespace collapseSpaces pyStrip at h
  have h1 := mem_collapseGo _ _ _ h
  rw [List.mem_reverse] at h1
  have h2 := List.dropWhile_subset pyIsSpace h1
  rw [List.mem_reverse] at h2
  exact List.dropWhile_subset pyIsSpace h2

theorem mem_cleanWhitespace_of_mem (s : PStr) (c : Char) (hc : pyIsSpace c = false)
    (h : c ∈ s) : c ∈ cleanWhitespace s := by
  have hcs : c ≠ ' ' := ne_space_of_nonspace c hc
  have hdw : ∀ l : PStr, c ∈ l → c ∈ l.dropWhile pyIsSpace := by
    intro l
    induction l with
    | nil => intro h0; simp at h0
    | cons x xs ih =>
      intro h0
      by_cases hx : pyIsSpace x = true
      · rw [List.dropWhile_cons_of_pos hx]
        rcases List.mem_cons.mp h0 with h1 | h1
        · rw [h1] at hc
          rw [hc] at hx
          exact absurd hx (by decide)
        · exact ih h1
      · rw [List.dropWhile_cons_of_neg hx]
        exact h0
  apply mem_collapseGo_of_mem false _ c hcs
  unfold pyStrip
  rw [List.mem_reverse]
  apply hdw
  rw [List.mem_reverse]
  exact hdw s h

theorem pyStrip_cleanWhitespace (s : PStr) : pyStrip (cleanWhitespace s) = cleanWhitespace s :=
  pyStrip_eq_self _ (head?_cleanWhitespace s) (getLast?_cleanWhitespace s)

theorem collapse_cleanWhitespace (s : PStr) :
    collapseGo false (cleanWhitespace s) = cleanWhitespace s :=
  collapseGo_collapseGo false (pyStrip s)

theorem cleanWhitespace_cleanWhitespace (s : PStr) :
    cleanWhitespace (cleanWhitespace s) = cleanWhitespace s := by
  show collapseSpaces (pyStrip (cleanWhitespace s)) = cleanWhitespace s
  rw [pyStrip_cleanWhitespace]
  exact collapse_cleanWhitespace s

theorem titleAux_cons (b : Bool) (c : Char) (cs : PStr) :
    titleAux b (c :: cs) =
      (if b then lowerChar c else upperChar c) :: titleAux (isCasedChar c) cs := rfl

theorem titleAux_titleAux (b : Bool) (s : PStr) : titleAux b (titleAux b s) = titleAux b s := by
  induction s generalizing b with
  | nil => rfl
  | cons c cs ih =>
    cases b with
    | false =>
      rw [titleAux_cons, titleAux_cons]
      have hred : ∀ x : Char, (if (false : Bool) = true then lowerChar x else upperChar x) =
          upperChar x := fun x => rfl
      rw [hred, hred, upperChar_upperChar, isCased_upperChar, ih (isCasedChar c)]
    | true =>
      rw [titleAux_cons, titleAux_cons]
      have hred : ∀ x : Char, (if (true : Bool) = true then lowerChar x else upperChar x) =
          lowerChar x := fun x => rfl
      rw [hred, hred, lowerChar_lowerChar, isCased_lowerChar, ih (isCasedChar c)]

theorem map_pyIsSpace_titleAux (b : Bool) (s : PStr) :
    (titleAux b s).map pyIsSpace = s.map pyIsSpace := by
  induction s generalizing b with
  | nil => rfl
  | cons c cs ih =>
    rw [titleAux_cons, List.map_cons, List.map_cons, ih]
    congr 1
    cases b with
    | false => exact pyIsSpace_upperChar c
    | true => exact pyIsSpace_lowerChar c

theorem collapseGo_titleAux (b₁ b₂ : Bool) (s : PStr) (h : collapseGo b₁ s = s) :
    collapseGo b₁ (titleAux b₂ s) = titleAux b₂ s := by
  induction s generalizing b₁ b₂ with
  | nil => rfl
  | cons c cs ih =>
    by_cases hc : c = ' '
    · subst hc
      have htc : (if b₂ then lowerChar ' ' else upperChar ' ') = ' ' := by
        cases b₂ <;> decide
      by_cases hb : b₁ = true
      · subst hb
        rw [collapseGo_cons_space_true] at h
        have hlen := collapseGo_length_le true cs
        rw [h] at hlen
        simp at hlen
      · have hb' : b₁ = false := by simpa using hb
        subst hb'
        rw [collapseGo_cons_space_false] at h
        have hcs : collapseGo true cs = cs := by simpa using h
        rw [titleAux_cons, htc, collapseGo_cons_space_false, ih true _ hcs]
    · rw [collapseGo_cons_nonspace b₁ c cs hc] at h
      have hcs : collapseGo false cs = cs := by simpa using h
      have htc : (if b₂ then lowerChar c else upperChar c) ≠ ' ' := by
        cases b₂ with
        | false => exact fun h0 => hc ((space_iff_upperChar c).mp h0)
        | true => exact fun h0 => hc ((space_iff_lowerChar c).mp h0)
      rw [titleAux_cons, collapseGo_cons_nonspace b₁ _ _ htc, ih false _ hcs]

theorem pyStrip_titleAux (b : Bool) (s : PStr) (h : pyStrip s = s) :
    pyStrip (titleAux b s) = titleAux b s := by
  apply pyStrip_eq_self
  · intro c hc
    have hm := congrArg List.head? (map_pyIsSpace_titleAux b s)
    rw [List.head?_map, List.head?_map, hc] at hm
    rcases hs : s.head? with _ | ⟨c₀⟩
    · rw [hs] at hm
      simp at hm
    · rw [hs] at hm
      have hpc : pyIsSpace c = pyIsSpace c₀ := by simpa using hm
      rw [hpc]
      exact head?_pyStrip s c₀ (by rw [h]; exact hs)
  · intro c hc
    have hm := congrArg List.getLast? (map_pyIsSpace_titleAux b s)
    rw [List.getLast?_map, List.getLast?_map, hc] at hm
    rcases hs : s.getLast? with _ | ⟨c₀⟩
    · rw [hs] at hm
      simp at hm
    · rw [hs] at hm
      have hpc : pyIsSpace c = pyIsSpace c₀ := by simpa using hm
      rw [hpc]
      exact getLast?_pyStrip s c₀ (by rw [h]; exact hs)

theorem cleanWhitespace_pyTitle_fix (s : PStr) :
    cleanWhitespace (pyTitle (cleanWhitespace s)) = pyTitle (cleanWhitespace s) := by
  show collapseSpaces (pyStrip (pyTitle (cleanWhitespace s))) = pyTitle (cleanWhitespace s)
  unfold pyTitle
  rw [pyStrip_titleAux false _ (pyStrip_cleanWhitespace s)]
  exact collapseGo_titleAux false false _ (collapse_cleanWhitespace s)

theorem titleW_idem (d v : PStr) :
    titleStep d (cleanWhitespace (titleStep d (cleanWhitespace v)))
      = titleStep d (cleanWhitespace v) := by
  by_cases h1 : cleanWhitespace v ≠ d ∧ ¬ pyIsTitle (cleanWhitespace v) = true
  · rw [show titleStep d (cleanWhitespace v) = pyTitle (cleanWhitespace v) from by
      unfold titleStep; rw [if_pos h1]]
    rw [cleanWhitespace_pyTitle_fix v]
    unfold titleStep
    by_cases h2 : pyTitle (cleanWhitespace v) ≠ d ∧
        ¬ pyIsTitle (pyTitle (cleanWhitespace v)) = true
    · rw [if_pos h2]
      exact titleAux_titleAux false _
    · rw [if_neg h2]
  · rw [show titleStep d (cleanWhitespace v) = cleanWhitespace v from by
      unfold titleStep; rw [if_neg h1]]
    rw [cleanWhitespace_cleanWhitespace]
    unfold titleStep
    rw [if_neg h1]

theorem pyIsLower_cleanWhitespace (v : PStr) (h : pyIsLower v = true) :
    pyIsLower (cleanWhitespace v) = true := by
  unfold pyIsLower at h ⊢
  rw [Bool.and_eq_true] at h ⊢
  obtain ⟨hany, hall⟩ := h
  constructor
  · rw [List.any_eq_true] at hany ⊢
    obtain ⟨c, hc, hcase⟩ := hany
    exact ⟨c, mem_cleanWhitespace_of_mem v c (nonspace_of_cased c hcase) hc, hcase⟩
  · rw [List.all_eq_true] at hall ⊢
    intro x hx
    exact hall x (mem_cleanWhitespace v x hx)

theorem pyIsLower_pyLower (v : PStr) (h : v.any isCasedChar = true) :
    pyIsLower (pyLower v) = true := by
  unfold pyIsLower pyLower
  rw [Bool.and_eq_true]
  constructor
  · rw [List.any_eq_true] at h ⊢
    obtain ⟨c, hc, hcase⟩ := h
    refine ⟨lowerChar c, List.mem_map_of_mem _ hc, ?_⟩
    rw [isCased_lowerChar]
    exact hcase
  · rw [List.all_eq_true]
    intro x hx
    rw [List.mem_map] at hx
    obtain ⟨y, _, rfl⟩ := hx
    simp [isUpper_lowerChar]

theorem pyLower_eq_self (v : PStr) (h : ∀ c ∈ v, isUpperChar c = false) : pyLower v = v := by
  unfold pyLower
  have hcongr : v.map lowerChar = v.map (fun c => c) :=
    List.map_congr_left (fun c hc => lowerChar_eq_self c (h c hc))
  rw [hcongr]
  simp

theorem lowerW_idem (d v : PStr) (hd : cleanWhitespace d = d) :
    cleanWhitespace (lowerStep d (cleanWhitespace (lowerStep d v)))
      = cleanWhitespace (lowerStep d v) := by
  suffices h : lowerStep d (cleanWhitespace (lowerStep d v)) = cleanWhitespace (lowerStep d v) by
    rw [h]
    exact cleanWhitespace_cleanWhitespace _
  by_cases h1 : v ≠ d ∧ ¬ pyIsLower v = true
  · rw [show lowerStep d v = pyLower v from by unfold lowerStep; rw [if_pos h1]]
    by_cases h2 : v.any isCasedChar = true
    · have hlow : pyIsLower (cleanWhitespace (pyLower v)) = true :=
        pyIsLower_cleanWhitespace _ (pyIsLower_pyLower v h2)
      unfold lowerStep
      split_ifs with hg
      · exact absurd hlow hg.2
      · rfl
    · have hunc : ∀ c ∈ v, isUpperChar c = false := by
        intro c hc
        by_contra hcon
        have hcased : isCasedChar c = true := by
          simp only [isCasedChar, Bool.or_eq_true]
          left
          simpa using hcon
        exact absurd (List.any_eq_true.mpr ⟨c, hc, hcased⟩) (by simpa using h2)
      rw [pyLower_eq_self v hunc]
      have hX : ∀ c ∈ cleanWhitespace v, isUpperChar c = false := fun c hc =>
        hunc c (mem_cleanWhitespace v c hc)
      unfold lowerStep
      split_ifs with hg
      · exact pyLower_eq_self _ hX
      · rfl
  · rw [show lowerStep d v = v from by unfold lowerStep; rw [if_neg h1]]
    by_cases hvd : v = d
    · rw [hvd, hd]
      unfold lowerStep
      split_ifs with hg
      · exact absurd rfl hg.1
      · rfl
    · have hlow : pyIsLower v = true := by
        by_contra hcon
        exact h1 ⟨hvd, hcon⟩
      have hlow2 : pyIsLower (cleanWhitespace v) = true := pyIsLower_cleanWhitespace v hlow
      unfold lowerStep
      split_ifs with hg
      · exact absurd hlow2 hg.2
      · rfl

theorem titleStep_titleStep (d x : PStr) : titleStep d (titleStep d x) = titleStep d x := by
  by_cases h1 : x ≠ d ∧ ¬ pyIsTitle x = true
  · rw [show titleStep d x = pyTitle x from by unfold titleStep; rw [if_pos h1]]
    unfold titleStep
    split_ifs with h2
    · exact titleAux_titleAux false x
    · rfl
  · rw [show titleStep d x = x from by unfold titleStep; rw [if_neg h1]]
    unfold titleStep
    rw [if_neg h1]

theorem mapStr_mapStr (f g : PStr → PStr) (c : Column) :
    mapStr f (mapStr g c) = mapStr (fun x => f (g x)) c := by
  unfold mapStr
  simp only [List.map_map]
  congr 1
  apply List.map_congr_left
  intro v _
  cases v <;> rfl

theorem mapStr_eq_self (f : PStr → PStr) (c : Column) (h : ∀ v ∈ c.vals, cvalMap f v = v) :
    mapStr f c = c := by
  unfold mapStr
  have hcongr : c.vals.map (cvalMap f) = c.vals.map (fun v => v) := List.map_congr_left h
  rw [hcongr]
  simp

theorem mapStr_cancel (f g : PStr → PStr) (hfg : ∀ x, f (g x) = g x) (c : Column) :
    mapStr f (mapStr g c) = mapStr g c := by
  rw [mapStr_mapStr]
  unfold mapStr
  congr 1
  apply List.map_congr_left
  intro v _
  cases v with
  | s x => simp [cvalMap, hfg]
  | i n => rfl

theorem sweepLower_pos (c : Column)
    (h : strEndsWith c.name "id" = true ∧ c.name ≠ "uuid" ∧ c.dtype = DType.str) :
    sweepLower c = mapStr (lowerStep c.default) c := by
  unfold sweepLower
  rw [if_pos h]

theorem sweepLower_neg (c : Column)
    (h : ¬(strEndsWith c.name "id" = true ∧ c.name ≠ "uuid" ∧ c.dtype = DType.str)) :
    sweepLower c = c := by
  unfold sweepLower
  rw [if_neg h]

theorem sweepRenumber_pos (t : String) (c : Column) (h : t = "roadseg" ∧ c.name = "roadsegid") :
    sweepRenumber t c = { c with vals := rangeInts c.vals.length } := by
  unfold sweepRenumber
  rw [if_pos h]

theorem sweepRenumber_neg (t : String) (c : Column)
    (h : ¬(t = "roadseg" ∧ c.name = "roadsegid")) : sweepRenumber t c = c := by
  unfold sweepRenumber
  rw [if_neg h]

theorem sweepWhitespace_pos (c : Column) (h : c.dtype = DType.str) :
    sweepWhitespace c = mapStr cleanWhitespace c := by
  unfold sweepWhitespace
  rw [if_pos h]

theorem sweepWhitespace_neg (c : Column) (h : ¬ c.dtype = DType.str) :
    sweepWhitespace c = c := by
  unfold sweepWhitespace
  rw [if_neg h]

theorem sweepTitle_pos (t : String) (c : Column)
    (h : (t = "ferryseg" ∨ t = "roadseg") ∧ c.name ∈ rtenameCols) :
    sweepTitle t c = mapStr (titleStep c.default) c := by
  unfold sweepTitle
  rw [if_pos h]

theorem sweepTitle_neg (t : String) (c : Column)
    (h : ¬((t = "ferryseg" ∨ t = "roadseg") ∧ c.name ∈ rtenameCols)) :
    sweepTitle t c = c := by
  unfold sweepTitle
  rw [if_neg h]

theorem rangeInts_length (n : Nat) : (rangeInts n).length = n := by
  unfold rangeInts
  rw [List.length_map, List.length_range]

theorem rangeInts_no_str (n : Nat) : ∀ v ∈ rangeInts n, ∀ x, v ≠ CVal.s x := by
  intro v hv x
  unfold rangeInts at hv
  rw [List.mem_map] at hv
  obtain ⟨k, _, rfl⟩ := hv
  exact fun h => CVal.noConfusion h

theorem sweepWhitespace_of_ints (c : Column) (h : ∀ v ∈ c.vals, ∀ x, v ≠ CVal.s x) :
    sweepWhitespace c = c := by
  unfold sweepWhitespace
  split_ifs with hg
  · apply mapStr_eq_self
    intro v hv
    cases v with
    | s x => exact absurd rfl (h _ hv x)
    | i n => rfl
  · rfl

theorem notD_of_endsWith (c : Column) (hA : strEndsWith c.name "id" = true) :
    c.name ∉ rtenameCols := by
  intro hmem
  simp only [rtenameCols, List.mem_cons, List.not_mem_nil, or_false] at hmem
  rcases hmem with h | h | h | h | h | h | h | h <;>
    (rw [h] at hA; exact absurd hA (by decide))

theorem colOp_eval_renumber (t : String) (c : Column)
    (hB : t = "roadseg" ∧ c.name = "roadsegid") :
    colOp t c = { c with vals := rangeInts c.vals.length } := by
  have hnotD : ¬((t = "ferryseg" ∨ t = "roadseg") ∧ c.name ∈ rtenameCols) := by
    intro hD
    rw [hB.2] at hD
    exact absurd hD.2 (by decide)
  unfold colOp
  by_cases hA : strEndsWith c.name "id" = true ∧ c.name ≠ "uuid" ∧ c.dtype = DType.str
  · rw [sweepLower_pos c hA]
    rw [sweepRenumber_pos t (mapStr (lowerStep c.default) c) ⟨hB.1, hB.2⟩]
    have hsimp : ({ mapStr (lowerStep c.default) c with
        vals := rangeInts (mapStr (lowerStep c.default) c).vals.length } : Column) =
        { c with vals := rangeInts c.vals.length } := by
      unfold mapStr
      simp
    rw [hsimp]
    rw [sweepWhitespace_of_ints _ (rangeInts_no_str _)]
    exact sweepTitle_neg t _ hnotD
  · rw [sweepLower_neg c hA]
    rw [sweepRenumber_pos t c hB]
    rw [sweepWhitespace_of_ints _ (rangeInts_no_str _)]
    exact sweepTitle_neg t _ hnotD

theorem colOp_eval_lower (t : String) (c : Column)
    (hB : ¬(t = "roadseg" ∧ c.name = "roadsegid"))
    (hA : strEndsWith c.name "id" = true ∧ c.name ≠ "uuid" ∧ c.dtype = DType.str) :
    colOp t c = mapStr (fun x => cleanWhitespace (lowerStep c.default x)) c := by
  have hnotD : ¬((t = "ferryseg" ∨ t = "roadseg") ∧ c.name ∈ rtenameCols) :=
    fun hD => absurd hD.2 (notD_of_endsWith c hA.1)
  unfold colOp
  rw [sweepLower_pos c hA]
  rw [sweepRenumber_neg t (mapStr (lowerStep c.default) c) hB]
  rw [sweepWhitespace_pos (mapStr (lowerStep c.default) c) hA.2.2]
  rw [sweepTitle_neg t (mapStr cleanWhitespace (mapStr (lowerStep c.default) c)) hnotD]
  exact mapStr_mapStr cleanWhitespace (lowerStep c.default) c

theorem colOp_eval_title (t : String) (c : Column)
    (hB : ¬(t = "roadseg" ∧ c.name = "roadsegid"))
    (hA : ¬(strEndsWith c.name "id" = true ∧ c.name ≠ "uuid" ∧ c.dtype = DType.str))
    (hC : c.dtype = DType.str)
    (hD : (t = "ferryseg" ∨ t = "roadseg") ∧ c.name ∈ rtenameCols) :
    colOp t c = mapStr (fun x => titleStep c.default (cleanWhitespace x)) c := by
  unfold colOp
  rw [sweepLower_neg c hA, sweepRenumber_neg t c hB, sweepWhitespace_pos c hC]
  rw [sweepTitle_pos t (mapStr cleanWhitespace c) ⟨hD.1, hD.2⟩]
  rw [mapStr_mapStr]
  rfl

theorem colOp_eval_white (t : String) (c : Column)
    (hB : ¬(t = "roadseg" ∧ c.name = "roadsegid"))
    (hA : ¬(strEndsWith c.name "id" = true ∧ c.name ≠ "uuid" ∧ c.dtype = DType.str))
    (hC : c.dtype = DType.str)
    (hD : ¬((t = "ferryseg" ∨ t = "roadseg") ∧ c.name ∈ rtenameCols)) :
    colOp t c = mapStr cleanWhitespace c := by
  unfold colOp
  rw [sweepLower_neg c hA, sweepRenumber_neg t c hB, sweepWhitespace_pos c hC]
  exact sweepTitle_neg t _ hD

theorem colOp_eval_title_int (t : String) (c : Column)
    (hB : ¬(t = "roadseg" ∧ c.name = "roadsegid"))
    (hC : ¬ c.dtype = DType.str)
    (hD : (t = "ferryseg" ∨ t = "roadseg") ∧ c.name ∈ rtenameCols) :
    colOp t c = mapStr (titleStep c.default) c := by
  have hA : ¬(strEndsWith c.name "id" = true ∧ c.name ≠ "uuid" ∧ c.dtype = DType.str) :=
    fun h => hC h.2.2
  unfold colOp
  rw [sweepLower_neg c hA, sweepRenumber_neg t c hB, sweepWhitespace_neg c hC]
  exact sweepTitle_pos t c hD

theorem colOp_eval_none (t : String) (c : Column)
    (hB : ¬(t = "roadseg" ∧ c.name = "roadsegid"))
    (hC : ¬ c.dtype = DType.str)
    (hD : ¬((t = "ferryseg" ∨ t = "roadseg") ∧ c.name ∈ rtenameCols)) :
    colOp t c = c := by
  have hA : ¬(strEndsWith c.name "id" = true ∧ c.name ≠ "uuid" ∧ c.dtype = DType.str) :=
    fun h => hC h.2.2
  unfold colOp
  rw [sweepLower_neg c hA, sweepRenumber_neg t c hB, sweepWhitespace_neg c hC]
  exact sweepTitle_neg t c hD

theorem colOp_idem (t : String) (c : Column) (hd : cleanWhitespace c.default = c.default) :
    colOp t (colOp t c) = colOp t c := by
  by_cases hB : t = "roadseg" ∧ c.name = "roadsegid"
  · rw [colOp_eval_renumber t c hB]
    rw [colOp_eval_renumber t ({ c with vals := rangeInts c.vals.length }) ⟨hB.1, hB.2⟩]
    have hlen : (rangeInts c.vals.length).length = c.vals.length := rangeInts_length _
    show ({ c with vals := rangeInts (rangeInts c.vals.length).length } : Column) =
      { c with vals := rangeInts c.vals.length }
    rw [hlen]
  · by_cases hC : c.dtype = DType.str
    · by_cases hA : strEndsWith c.name "id" = true ∧ c.name ≠ "uuid" ∧ c.dtype = DType.str
      · rw [colOp_eval_lower t c hB hA]
        rw [colOp_eval_lower t
          (mapStr (fun x => cleanWhitespace (lowerStep c.default x)) c) hB hA]
        exact mapStr_cancel (fun x => cleanWhitespace (lowerStep c.default x))
          (fun x => cleanWhitespace (lowerStep c.default x))
          (fun x => lowerW_idem c.default x hd) c
      · by_cases hD : (t = "ferryseg" ∨ t = "roadseg") ∧ c.name ∈ rtenameCols
        · rw [colOp_eval_title t c hB hA hC hD]
          rw [colOp_eval_title t
            (mapStr (fun x => titleStep c.default (cleanWhitespace x)) c) hB hA hC hD]
          exact mapStr_cancel (fun x => titleStep c.default (cleanWhitespace x))
            (fun x => titleStep c.default (cleanWhitespace x))
            (fun x => titleW_idem c.default x) c
        · rw [colOp_eval_white t c hB hA hC hD]
          rw [colOp_eval_white t (mapStr cleanWhitespace c) hB hA hC hD]
          exact mapStr_cancel cleanWhitespace cleanWhitespace
            (fun x => cleanWhitespace_cleanWhitespace x) c
    · by_cases hD : (t = "ferryseg" ∨ t = "roadseg") ∧ c.name ∈ rtenameCols
      · rw [colOp_eval_title_int t c hB hC hD]
        rw [colOp_eval_title_int t (mapStr (titleStep c.default) c) hB hC hD]
        exact mapStr_cancel (titleStep c.default) (titleStep c.default)
          (fun x => titleStep_titleStep c.default x) c
      · rw [colOp_eval_none t c hB hC hD]
        rw [colOp_eval_none t c hB hC hD]

/-! ### Theorems about the cleaning stage -/

/-- C7: The four cleaning sweeps (lowercase IDs, whitespace
trim-and-collapse, title-case route names, roadsegid renumber) are
idempotent as a stage: for every table store whose registered column
defaults are whitespace-normal (the schema defaults — "None", "Unknown",
numeric strings — all are), applying `clean_datasets` twice yields a
result equal to applying it once. -/
theorem cleanDatasets_idempotent (store : List (String × List Column))
    (hd : ∀ t ∈ store, ∀ c ∈ t.2, cleanWhitespace c.default = c.default) :
    cleanDatasets (cleanDatasets store) = cleanDatasets store := by
  unfold cleanDatasets
  rw [List.map_map]
  apply List.map_congr_left
  intro t ht
  show (t.1, (t.2.map (colOp t.1)).map (colOp t.1)) = (t.1, t.2.map (colOp t.1))
  rw [List.map_map]
  refine congrArg _ ?_
  apply List.map_congr_left
  intro cc hcc
  show colOp t.1 (colOp t.1 cc) = colOp t.1 cc
  exact colOp_idem t.1 cc (hd t ht cc hcc)

/-- A two-table store exercising all four sweeps: a renumbered
`roadsegid`, a lower-cased `nid`, and title-cased route names with
stray whitespace. -/
def demoStore : List (String × List Column) :=
  [("roadseg",
    [{ name := "roadsegid", dtype := DType.int, default := ['0'],
       vals := [CVal.i 7, CVal.i 9] },
     { name := "nid", dtype := DType.str, default := ['N', 'o', 'n', 'e'],
       vals := [CVal.s ['A', 'B', '1'], CVal.s ['N', 'o', 'n', 'e']] },
     { name := "rtename1en", dtype := DType.str, default := ['N', 'o', 'n', 'e'],
       vals := [CVal.s [' ', 'm', 'a', 'i', 'n', ' ', ' ', 's', 't']] }]),
   ("ferryseg",
    [{ name := "rtename1fr", dtype := DType.str, default := ['N', 'o', 'n', 'e'],
       vals := [CVal.s ['R', 'O', 'U', 'T', 'E', ' ', 'V', 'E', 'R', 'T', 'E']] }])]

/-- Witness for C7: the demo store has whitespace-normal defaults and
cleaning it twice equals cleaning it once. -/
theorem cleanDatasets_idempotent_witness :
    (∀ t ∈ demoStore, ∀ c ∈ t.2, cleanWhitespace c.default = c.default) ∧
      cleanDatasets (cleanDatasets demoStore) = cleanDatasets demoStore :=
  ⟨by decide, cleanDatasets_idempotent demoStore (by decide)⟩

end NRN
